import Mathlib

/-!
# Verification of the Base-1 continued-fraction stream core

This file gives a shallow embedding of the stream-arithmetic core of the
Base-1 repository and proves / refutes the frozen specification claims
about it.

Embedded components (from the Python sources):
* `euc` — the Euclidean term generator (`core/algorithms.py`, `Euclid`)
  on natural numbers, plus the continuant (matrix) theory needed to
  describe Gosper-engine states reached after ingesting a full term list.
* `fastDivQ` / `fastDivR` — FastInteger division (`core/science_mode.py`,
  truncation toward zero, remainder signed like the dividend).
* `Unary` — the unary string backend (`src/unary.py`), with magnitudes of
  the `|`-strings represented as natural numbers.
* `MOps` / `engStep` / `engRun` — the bihomographic Gosper engine
  (`core/gosper.py`) over an arbitrary Matter backend, with Python
  exceptions modelled by `Option` (a `none` outcome is a raised error).
* `TState` / `tStep` / `tRun` — the GCF→SCF transducer
  (`src/transcendental.py`), which is hard-wired to the FastInteger
  backend in the source.
* `MStream` — the single-slot lookahead stream (`src/stream.py`).
* `piSrcPair` — the generalized continued fraction source for π
  (`constants/pi.py`).
-/

namespace Base1

/-! ## The Euclidean term generator on ℕ

`Euclid` in `core/algorithms.py` repeatedly divides, yields the quotient
and rotates `(numerator, denominator) ← (denominator, remainder)` until
the denominator is vacuum.  On the natural numbers this is the plain
Euclidean algorithm; `euc` is its list of quotients.
-/

/-- Quotient list of the Euclidean algorithm on ℕ (the term list of the
simple continued fraction of `p / q`). -/
def euc (p q : Nat) : List Nat :=
  if h : q = 0 then []
  else (p / q) :: euc q (p % q)
termination_by q
decreasing_by exact Nat.mod_lt _ (Nat.pos_of_ne_zero h)

/-! ## Continuant matrices

Ingesting a term `t` into a Gosper state multiplies state columns by the
matrix `T t = [[t, 1], [1, 0]]`.  `matOf l` is the product
`T t₀ ⬝ T t₁ ⬝ … ⬝ T tₙ` as a 4-tuple `(m11, m12, m21, m22)`; its first
column on `euc p q` recovers `p` and `q` divided by their gcd. -/

/-- Forward product of the term matrices `[[t,1],[1,0]]`. -/
def matOf : List Nat → Nat × Nat × Nat × Nat
  | [] => (1, 0, 0, 1)
  | t :: l =>
    (t * (matOf l).1 + (matOf l).2.2.1, t * (matOf l).2.1 + (matOf l).2.2.2,
      (matOf l).1, (matOf l).2.1)

/-- The column fold performed by repeated `ingest_x` on one column
`(x, y)` of a Gosper state (first term of the list is ingested first). -/
def lfold : List Nat → Nat × Nat → Nat × Nat
  | [], v => v
  | t :: l, v => lfold l (v.1 * t + v.2, v.1)

/-- The same column fold over signed values (for Gosper states whose
coefficients have left the naturals, as in subtraction). -/
def lfoldI : List Int → Int × Int → Int × Int
  | [], v => v
  | t :: l, v => lfoldI l (v.1 * t + v.2, v.1)

/-! ## The FastInteger (science) backend

`core/science_mode.py` wraps a Python `int`.  Division returns a
`(quotient, remainder)` pair: the quotient is the magnitude quotient with
the xor-of-signs rule (truncation toward zero) and the remainder carries
the sign of the dividend; dividing by zero raises. -/

/-- FastInteger quotient (`__truediv__`): `|n| / |d|` negated iff the
signs differ. -/
def fastDivQ (n d : Int) : Int :=
  if (n < 0) ↔ (d < 0) then ((n.natAbs / d.natAbs : Nat) : Int)
  else -((n.natAbs / d.natAbs : Nat) : Int)

/-- FastInteger remainder (`__truediv__`): `|n| % |d|` with the sign of
the dividend. -/
def fastDivR (n d : Int) : Int :=
  if n < 0 then -((n.natAbs % d.natAbs : Nat) : Int)
  else ((n.natAbs % d.natAbs : Nat) : Int)

/-! ## The unary (physics) backend

`src/unary.py` represents integers as strings of `|`; we keep only the
string length (its `mass`).  `NonNegativeInteger` is `pos`,
`NegativeInteger` is `neg`; note `neg 0` is a representable negative
zero, distinct from `pos 0`. -/

/-- A unary backend value. -/
inductive Unary
  | pos (mag : Nat)
  | neg (mag : Nat)
deriving DecidableEq, Repr

namespace Unary

/-- `__int__`: signed value. -/
def toInt : Unary → Int
  | pos m => (m : Int)
  | neg m => -(m : Int)

/-- `is_vacuum`: the `|`-string is empty. -/
def isVac : Unary → Bool
  | pos m => m == 0
  | neg m => m == 0

/-- `NegativeInteger.__call__`: annihilate a negative of magnitude `s`
against non-negative data of magnitude `u`. -/
def callNeg (s u : Nat) : Unary :=
  if s ≤ u then pos (u - s) else neg (s - u)

/-- `smart_add`. -/
def uadd : Unary → Unary → Unary
  | pos a, pos b => pos (a + b)
  | neg a, neg b => neg (a + b)
  | pos a, neg b => callNeg b a
  | neg a, pos b => callNeg a b

/-- `smart_mul`. -/
def umul : Unary → Unary → Unary
  | pos a, pos b => pos (a * b)
  | pos a, neg b => neg (a * b)
  | neg a, pos b => neg (a * b)
  | neg a, neg b => pos (a * b)

/-- `__sub__`: `self + (other * NegativeInteger("|"))`. -/
def usub (a b : Unary) : Unary := uadd a (umul b (neg 1))

/-- `smart_div`: `(quotient, remainder)` on magnitudes, quotient
non-negative iff the two classes agree, remainder signed like the
dividend; an empty divisor raises `ZeroDivisionError` (`none`). -/
def udiv : Unary → Unary → Option (Unary × Unary)
  | pos la, pos lb => if lb = 0 then none else some (pos (la / lb), pos (la % lb))
  | pos la, neg lb => if lb = 0 then none else some (neg (la / lb), pos (la % lb))
  | neg la, pos lb => if lb = 0 then none else some (neg (la / lb), neg (la % lb))
  | neg la, neg lb => if lb = 0 then none else some (pos (la / lb), neg (la % lb))

end Unary

/-! ## The Matter interface and the Gosper engine

`gosper_engine` (core/gosper.py) is duck-typed over any Matter backend.
`MOps` collects the operations it actually uses.  Python exceptions are
modelled with `Option`: a `none` result of `div` is a raised
`ZeroDivisionError`, a `none` result of `addInt` a raised `TypeError`
(`smart_add` on a Python `int` returns `NotImplemented`). -/

/-- Matter operations consumed by the engine. -/
structure MOps (α : Type) where
  add : α → α → α
  sub : α → α → α
  mul : α → α → α
  div : α → α → Option (α × α)
  isVacuum : α → Bool
  toInt : α → Int
  addInt : α → Int → Option α

/-- FastInteger Matter operations (science backend). -/
def intOps : MOps Int where
  add := (· + ·)
  sub := (· - ·)
  mul := (· * ·)
  div n d := if d = 0 then none else some (fastDivQ n d, fastDivR n d)
  isVacuum d := d == 0
  toInt := id
  addInt a k := some (a + k)

/-- Unary Matter operations (physics backend).  `addInt` always fails:
`smart_add` has no case for a raw Python `int`, so `q + diff` in
`get_floor` raises `TypeError`. -/
def uOps : MOps Unary where
  add := Unary.uadd
  sub := Unary.usub
  mul := Unary.umul
  div := Unary.udiv
  isVacuum := Unary.isVac
  toInt := Unary.toInt
  addInt _ _ := none

/-- `get_floor` inside `gosper_engine`: `none` is a raised exception,
`some none` an undefined candidate (vacuum denominator), `some (some k)`
a computed candidate whose integer value is the floor of `num / den`. -/
def mGetFloor (ops : MOps α) (num den : α) : Option (Option α) :=
  if ops.isVacuum den then some none
  else
    match ops.div num den with
    | none => none
    | some (q, _) =>
      if ops.toInt den = 0 then some none
      else
        if ops.toInt q = Int.fdiv (ops.toInt num) (ops.toInt den) then
          some (some q)
        else
          match ops.addInt q (Int.fdiv (ops.toInt num) (ops.toInt den) - ops.toInt q) with
          | none => none
          | some k => some (some k)

/-- The eight bihomographic coefficients (`GosperState`). -/
structure GS (α : Type) where
  a : α
  b : α
  c : α
  d : α
  e : α
  f : α
  g : α
  h : α

/-- `GosperState.ingest_x`. -/
def GS.ingestX (ops : MOps α) (s : GS α) (p : α) : GS α where
  a := ops.add (ops.mul s.a p) s.c
  b := ops.add (ops.mul s.b p) s.d
  c := s.a
  d := s.b
  e := ops.add (ops.mul s.e p) s.g
  f := ops.add (ops.mul s.f p) s.h
  g := s.e
  h := s.f

/-- `GosperState.ingest_y`. -/
def GS.ingestY (ops : MOps α) (s : GS α) (q : α) : GS α where
  a := ops.add (ops.mul s.a q) s.b
  b := s.a
  c := ops.add (ops.mul s.c q) s.d
  d := s.c
  e := ops.add (ops.mul s.e q) s.f
  f := s.e
  g := ops.add (ops.mul s.g q) s.h
  h := s.g

/-- `GosperState.emit`. -/
def GS.emit (ops : MOps α) (s : GS α) (k : α) : GS α where
  a := s.e
  b := s.f
  c := s.g
  d := s.h
  e := ops.sub s.a (ops.mul s.e k)
  f := ops.sub s.b (ops.mul s.f k)
  g := ops.sub s.c (ops.mul s.g k)
  h := ops.sub s.d (ops.mul s.h k)

/-- The candidate list built at the top of each engine iteration:
`a/e` always, the three further ratios guarded by the liveness flags. -/
def mCands (ops : MOps α) (s : GS α) (xA yA : Bool) :
    Option (List (Option α)) := do
  let c1 ← mGetFloor ops s.a s.e
  let l2 ←
    if xA && yA then
      (mGetFloor ops (ops.add (ops.add (ops.add s.a s.b) s.c) s.d)
        (ops.add (ops.add (ops.add s.e s.f) s.g) s.h)).map ([·])
    else pure []
  let l3 ←
    if yA then
      (mGetFloor ops (ops.add s.a s.b) (ops.add s.e s.f)).map ([·])
    else pure []
  let l4 ←
    if xA then
      (mGetFloor ops (ops.add s.a s.c) (ops.add s.e s.g)).map ([·])
    else pure []
  pure (c1 :: (l2 ++ l3 ++ l4))

/-- Consensus: every candidate defined and all sharing one integer
value; yields the first candidate. -/
def mConsensus (ops : MOps α) (cands : List (Option α)) : Option α :=
  match cands.filterMap id with
  | [] => none
  | v :: vs =>
    if (v :: vs).length = cands.length
        ∧ vs.all (fun c => ops.toInt c == ops.toInt v) then some v
    else none

/-- Main-loop configuration: state, remaining input terms, liveness. -/
structure ECfg (α : Type) where
  st : GS α
  xs : List α
  ys : List α
  xA : Bool
  yA : Bool

/-- Engine phase: the main loop, the final Euclid drain on `a / e`, or
halted for good. -/
inductive EView (α : Type)
  | run (c : ECfg α)
  | drain (num den : α)
  | halted

/-- One pass of `gosper_engine`: one main-loop iteration, or one pass of
the drain loop.  Returns the next view and the term yielded by that
pass; `none` is a raised exception. -/
def engStep (ops : MOps α) : EView α → Option (EView α × Option α)
  | .halted => some (.halted, none)
  | .drain num den =>
    if ops.isVacuum den then some (.halted, none)
    else
      match ops.div num den with
      | none => none
      | some (q, r) => some (.drain den r, some q)
  | .run c =>
    match mCands ops c.st c.xA c.yA with
    | none => none
    | some cands =>
      match mConsensus ops cands with
      | some k => some (.run { c with st := c.st.emit ops k }, some k)
      | none =>
        match c.xA, c.xs with
        | true, p :: rest =>
          some (.run { c with st := c.st.ingestX ops p, xs := rest }, none)
        | true, [] =>
          match c.yA, c.ys with
          | true, q :: rest =>
            some (.run { c with st := c.st.ingestY ops q, xA := false, ys := rest },
              none)
          | true, [] => some (.drain c.st.a c.st.e, none)
          | false, _ => some (.drain c.st.a c.st.e, none)
        | false, _ =>
          match c.yA, c.ys with
          | true, q :: rest =>
            some (.run { c with st := c.st.ingestY ops q, ys := rest }, none)
          | true, [] => some (.drain c.st.a c.st.e, none)
          | false, _ => some (.drain c.st.a c.st.e, none)

/-- Run `n` engine passes, collecting the yielded terms. -/
def engRun (ops : MOps α) : Nat → EView α → Option (List α × EView α)
  | 0, v => some ([], v)
  | n + 1, v =>
    match engStep ops v with
    | none => none
    | some (v1, out) =>
      match engRun ops n v1 with
      | none => none
      | some (outs, vf) =>
        some ((match out with | some k => k :: outs | none => outs), vf)

/-- Fresh engine configuration over full input term lists. -/
def engInit (s : GS α) (xs ys : List α) : EView α :=
  .run ⟨s, xs, ys, true, true⟩

/-- Modelled from the spec: the `ContinuedFraction` operator seeding
table of §4.4 (`core/continued_fraction.py` is not among the provided
sources).  Addition seed `(0,1,1,0 / 0,0,0,1)`. -/
def addSeed : GS Int := ⟨0, 1, 1, 0, 0, 0, 0, 1⟩

/-- Modelled from the spec: subtraction seed `(0,1,-1,0 / 0,0,0,1)`. -/
def subSeed : GS Int := ⟨0, 1, -1, 0, 0, 0, 0, 1⟩

/-- Modelled from the spec: multiplication seed `(1,0,0,0 / 0,0,0,1)`. -/
def mulSeed : GS Int := ⟨1, 0, 0, 0, 0, 0, 0, 1⟩

/-- Modelled from the spec: division seed `(0,1,0,0 / 0,0,1,0)`. -/
def divSeed : GS Int := ⟨0, 1, 0, 0, 0, 0, 1, 0⟩

/-- Modelled from the spec: the unary-backend subtraction seed, with
`-1` represented as `NegativeInteger("|")`. -/
def subSeedU : GS Unary :=
  ⟨.pos 0, .pos 1, .neg 1, .pos 0, .pos 0, .pos 0, .pos 0, .pos 1⟩

/-- Modelled from the spec: the unary-backend addition seed. -/
def addSeedU : GS Unary :=
  ⟨.pos 0, .pos 1, .pos 1, .pos 0, .pos 0, .pos 0, .pos 0, .pos 1⟩

/-- Modelled from the spec: the unary-backend multiplication seed. -/
def mulSeedU : GS Unary :=
  ⟨.pos 1, .pos 0, .pos 0, .pos 0, .pos 0, .pos 0, .pos 0, .pos 1⟩

/-- The integer `Euclid` quotient list (terminating form of the loop in
core/algorithms.py over the FastInteger backend). -/
def euclidInt (p q : Int) : List Int :=
  if hq : q = 0 then []
  else fastDivQ p q :: euclidInt q (fastDivR p q)
termination_by q.natAbs
decreasing_by
  have habs : (fastDivR p q).natAbs = p.natAbs % q.natAbs := by
    unfold fastDivR; split <;> simp only [Int.natAbs_neg, Int.natAbs_ofNat]
  rw [habs]
  exact Nat.mod_lt _ (Int.natAbs_pos.mpr hq)

/-- The `Euclid` generator loop over an arbitrary Matter backend: `n`
loop passes; the final component is the still-pending pair, or `none`
once the loop has terminated on a vacuum denominator. -/
def mEuclidRun (ops : MOps α) : Nat → α → α → Option (List α × Option (α × α))
  | 0, num, den => some ([], some (num, den))
  | n + 1, num, den =>
    if ops.isVacuum den then some ([], none)
    else
      match ops.div num den with
      | none => none
      | some (q, r) =>
        match mEuclidRun ops n den r with
        | none => none
        | some (outs, st) => some (q :: outs, st)

/-! ## The backend-generic engine shadow

Both Matter backends embed the naturals — `FastInteger` as the wrapped
integer itself, the unary backend as a `NonNegativeInteger` mass
string — and on embedded data the engine's arithmetic, division and
floor tests coincide with plain natural-number arithmetic (truncation
and flooring agree, so `get_floor` never reaches its adjustment line).
`MEmb` packages the embedding laws shared by the two backends; the
`n…` definitions are the natural-number shadow of the engine's state
operations, so one shadow run describes the runs of both backends. -/

/-- The laws of an embedding of the naturals into a Matter backend. -/
structure MEmb (ops : MOps α) (ι : Nat → α) : Prop where
  add : ∀ m n, ops.add (ι m) (ι n) = ι (m + n)
  mul : ∀ m n, ops.mul (ι m) (ι n) = ι (m * n)
  sub : ∀ m n, n ≤ m → ops.sub (ι m) (ι n) = ι (m - n)
  div : ∀ m n, n ≠ 0 → ops.div (ι m) (ι n) = some (ι (m / n), ι (m % n))
  vac : ∀ m, ops.isVacuum (ι m) = (m == 0)
  toInt : ∀ m, ops.toInt (ι m) = (m : Int)

/-- Embed a shadow Gosper state. -/
def GS.emb (ι : Nat → α) (s : GS Nat) : GS α :=
  ⟨ι s.a, ι s.b, ι s.c, ι s.d, ι s.e, ι s.f, ι s.g, ι s.h⟩

/-- Embed a shadow configuration. -/
def ECfg.emb (ι : Nat → α) (c : ECfg Nat) : ECfg α :=
  ⟨c.st.emb ι, c.xs.map ι, c.ys.map ι, c.xA, c.yA⟩

/-- Embed a shadow view. -/
def EView.emb (ι : Nat → α) : EView Nat → EView α
  | .run c => .run (c.emb ι)
  | .drain num den => .drain (ι num) (ι den)
  | .halted => .halted

/-- Shadow candidate floor. -/
def nCandFloor (num den : Nat) : Option Nat :=
  if den = 0 then none else some (num / den)

/-- Shadow candidate list (same guards as the engine). -/
def nCands (s : GS Nat) (xA yA : Bool) : List (Option Nat) :=
  [nCandFloor s.a s.e]
    ++ (if xA && yA then
        [nCandFloor (s.a + s.b + s.c + s.d) (s.e + s.f + s.g + s.h)] else [])
    ++ (if yA then [nCandFloor (s.a + s.b) (s.e + s.f)] else [])
    ++ (if xA then [nCandFloor (s.a + s.c) (s.e + s.g)] else [])

/-- Shadow consensus over a candidate list. -/
def nConsensusL : List (Option Nat) → Option Nat
  | [] => none
  | none :: _ => none
  | some k :: rest =>
    if ∀ c ∈ (some k :: rest : List (Option Nat)), c = some k then some k
    else none

/-- Shadow consensus of a state. -/
def nConsensus (s : GS Nat) (xA yA : Bool) : Option Nat :=
  nConsensusL (nCands s xA yA)

/-- Shadow consensus of the two candidates probed when only `y` is
live (`a/e` and `(a+b)/(e+f)`). -/
def nConsensus2 (a b e f : Nat) : Option Nat :=
  nConsensusL [nCandFloor a e, nCandFloor (a + b) (e + f)]

/-- Shadow `ingest_x`. -/
def nIngestX (s : GS Nat) (p : Nat) : GS Nat :=
  ⟨s.a * p + s.c, s.b * p + s.d, s.a, s.b, s.e * p + s.g, s.f * p + s.h, s.e, s.f⟩

/-- Shadow `ingest_y`. -/
def nIngestY (s : GS Nat) (q : Nat) : GS Nat :=
  ⟨s.a * q + s.b, s.a, s.c * q + s.d, s.c, s.e * q + s.f, s.e, s.g * q + s.h, s.g⟩

/-- Shadow `emit(0)`: rotate the two coefficient quadruples (no
subtraction happens for the digit `0`). -/
def nEmit0 (s : GS Nat) : GS Nat :=
  ⟨s.e, s.f, s.g, s.h, s.a, s.b, s.c, s.d⟩

/-- Shadow pull (the input-consumption step of a pass without
consensus). -/
def nPull (c : ECfg Nat) : EView Nat :=
  match c.xA, c.xs with
  | true, p :: rest => .run { c with st := nIngestX c.st p, xs := rest }
  | true, [] =>
    match c.yA, c.ys with
    | true, q :: rest =>
      .run { c with st := nIngestY c.st q, xA := false, ys := rest }
    | true, [] => .drain c.st.a c.st.e
    | false, _ => .drain c.st.a c.st.e
  | false, _ =>
    match c.yA, c.ys with
    | true, q :: rest => .run { c with st := nIngestY c.st q, ys := rest }
    | true, [] => .drain c.st.a c.st.e
    | false, _ => .drain c.st.a c.st.e

/-- Modelled from the spec: the shadow forms of the §4.4 seeds used by
the identity and inverse laws (subtraction, whose seed leaves ℕ, is
kept on the backends themselves). -/
def addSeedN : GS Nat := ⟨0, 1, 1, 0, 0, 0, 0, 1⟩

/-- Modelled from the spec: the shadow multiplication seed. -/
def mulSeedN : GS Nat := ⟨1, 0, 0, 0, 0, 0, 0, 1⟩

/-- Modelled from the spec: the shadow division seed. -/
def divSeedN : GS Nat := ⟨0, 1, 0, 0, 0, 0, 1, 0⟩

/-! ## The GCF→SCF transducer

`src/transcendental.py` is hard-wired to the FastInteger backend
(`science_mode.U`), so the 2×2 state is embedded directly over ℤ. -/

/-- The homographic state `(A, B, C, D)` of `GCFState`. -/
structure TState where
  A : Int
  B : Int
  C : Int
  D : Int

/-- `GCFState.ingest`. -/
def TState.ingest (s : TState) (a b : Int) : TState :=
  ⟨s.A * b + s.B, s.A * a, s.C * b + s.D, s.C * a⟩

/-- `GCFState.emit`. -/
def TState.emit (s : TState) (k : Int) : TState :=
  ⟨s.C, s.D, s.A - s.C * k, s.B - s.D * k⟩

/-- `get_floor` inside `GCFState.probe`: the raw division quotient, with
no floor correction; undefined on a vacuum denominator. -/
def tGetFloor (num den : Int) : Option Int :=
  if den = 0 then none else some (fastDivQ num den)

/-- `GCFState.probe`: a digit is forced when both quotients are defined
and equal. -/
def TState.probe (s : TState) : Option Int :=
  match tGetFloor s.A s.C, tGetFloor s.B s.D with
  | some f1, some f2 => if f1 = f2 then some f1 else none
  | _, _ => none

/-- Transducer phase: main loop over a source of `(numerator,
denominator)` pairs consumed by index, trailing drain of `A / C`, or
halted. -/
inductive TView
  | run (s : TState) (idx : Nat) (active : Bool)
  | drain (num den : Int)
  | halted

/-- One pass of `gcf_to_scf`: probe-and-emit, else ingest the next
source pair; an exhausted source is discovered and drained in the same
pass.  The drain yields one quotient per pass. -/
def tStep (src : Nat → Option (Int × Int)) : TView → TView × Option Int
  | .halted => (.halted, none)
  | .drain num den =>
    if den = 0 then (.halted, none)
    else (.drain den (fastDivR num den), some (fastDivQ num den))
  | .run s idx active =>
    match s.probe with
    | some k => (.run (s.emit k) idx active, some k)
    | none =>
      if active then
        match src idx with
        | some (a, b) => (.run (s.ingest a b) (idx + 1) active, none)
        | none => (.drain s.A s.C, none)
      else (.drain s.A s.C, none)

/-- Run `n` transducer passes, collecting the yielded terms. -/
def tRun (src : Nat → Option (Int × Int)) : Nat → TView → List Int × TView
  | 0, v => ([], v)
  | n + 1, v =>
    match tStep src v with
    | (v1, out) =>
      match tRun src n v1 with
      | (outs, vf) =>
        ((match out with | some k => k :: outs | none => outs), vf)

/-- Tail-recursive form of `tRun` (same pass sequence, accumulator for
the yields); used so that long runs evaluate without deep recursion. -/
def tRunAcc (src : Nat → Option (Int × Int)) :
    Nat → TView → List Int → List Int × TView
  | 0, v, acc => (acc.reverse, v)
  | n + 1, v, acc =>
    match tStep src v with
    | (v1, some k) => tRunAcc src n v1 (k :: acc)
    | (v1, none) => tRunAcc src n v1 acc

/-- The fresh transducer state `(1, 0, 0, 1)` of `GCFState.__init__`. -/
def tInit : TView := .run ⟨1, 0, 0, 1⟩ 0 true

/-- The generalized-continued-fraction source for `π - 3`
(`pi_gcf_source` in constants/pi.py): the inversion pair `(1, 0)`, then
`((2n-1)^2, 6)` for `n = 2, 3, …`. -/
def piSrcPair (i : Nat) : Option (Int × Int) :=
  match i with
  | 0 => some (1, 0)
  | j + 1 =>
    some ((2 * ((j : Int) + 2) - 1) * (2 * ((j : Int) + 2) - 1), 6)

/-- `constructive_pi_stream`: the integer part 3 followed by the
transduced fractional stream with a vacuum leading term dropped. -/
def piTerms (fuel : Nat) : List Int :=
  3 :: (match (tRun piSrcPair fuel tInit).1 with
    | [] => []
    | z :: rest => if z = 0 then rest else z :: rest)

/-! ## The lookahead stream

`src/stream.py`: a single buffered head over a producer; we model the
producer by the list of values it has yet to yield.  `consume` returns
`none` in its first component when the Python code raises
`StopIteration` (the buffer was already the exhausted sentinel); the
stream is returned unchanged in that case. -/

/-- A charged stream: buffered head plus the rest of the producer. -/
structure MStream (α : Type) where
  buf : Option α
  rest : List α

/-- `Stream.__init__` / `_fill`: charge the register from a producer. -/
def streamOf (l : List α) : MStream α :=
  match l with
  | [] => ⟨none, []⟩
  | t :: r => ⟨some t, r⟩

/-- `Stream.head`: observe the buffer. -/
def MStream.head (s : MStream α) : Option α := s.buf

/-- `Stream.consume`: return the buffered head and re-fill from the
producer; raises (first component `none`, state unchanged) iff the
buffer already held the exhausted sentinel. -/
def MStream.consume (s : MStream α) : Option α × MStream α :=
  match s.buf with
  | none => (none, s)
  | some v => (some v, streamOf s.rest)

/-! ## Rational reconstruction (claim C2) -/

/-- Folded reconstruction of a continued-fraction term list:
`aₙ`, then `aₙ₋₁ + 1/prev`, and so on (`0⁻¹ = 0` makes the empty tail
vanish). -/
def cfFold (l : List Int) : ℚ :=
  l.foldr (fun a acc => (a : ℚ) + acc⁻¹) 0

/-! ## Specification-side definitions

These mirror the words of the frozen claims, not the code; the claim
theorems below relate them to the embedded code. -/

/-- Claim-side candidate floor: defined iff the denominator is
non-vacuum, and then the true floor (toward minus infinity). -/
def specCandFloor (num den : Int) : Option Int :=
  if den = 0 then none else some (Int.fdiv num den)

/-- Claim-side candidate list (C1): `a/e` always, the combined ratio
only when both inputs are live, `(a+b)/(e+f)` only when `y` is live,
`(a+c)/(e+g)` only when `x` is live. -/
def specCands (s : GS Int) (xA yA : Bool) : List (Option Int) :=
  [specCandFloor s.a s.e]
    ++ (if xA && yA then
        [specCandFloor (s.a + s.b + s.c + s.d) (s.e + s.f + s.g + s.h)] else [])
    ++ (if yA then [specCandFloor (s.a + s.b) (s.e + s.f)] else [])
    ++ (if xA then [specCandFloor (s.a + s.c) (s.e + s.g)] else [])

/-- Claim-side consensus (C1): every computed candidate is defined and
all agree on the same integer floor, which is then the emitted digit
(the floor of `a / e`, the first candidate). -/
def specConsensus (s : GS Int) (xA yA : Bool) : Option Int :=
  match specCandFloor s.a s.e with
  | none => none
  | some k =>
    if ∀ c ∈ specCands s xA yA, c = some k then some k else none

/-- Claim-side `emit(k)` (C1): `(a,b,c,d) ← (e,f,g,h)` and
`(e,f,g,h) ← old (a,b,c,d) − k · old (e,f,g,h)`. -/
def specEmit (s : GS Int) (k : Int) : GS Int :=
  ⟨s.e, s.f, s.g, s.h, s.a - s.e * k, s.b - s.f * k, s.c - s.g * k, s.d - s.h * k⟩

/-- Claim-side `ingest_x(p)` (C4). -/
def specIngestX (s : GS Int) (p : Int) : GS Int :=
  ⟨s.a * p + s.c, s.b * p + s.d, s.a, s.b, s.e * p + s.g, s.f * p + s.h, s.e, s.f⟩

/-- Claim-side `ingest_y(q)` (C4, the mirror substitution). -/
def specIngestY (s : GS Int) (q : Int) : GS Int :=
  ⟨s.a * q + s.b, s.a, s.c * q + s.d, s.c, s.e * q + s.f, s.e, s.g * q + s.h, s.g⟩

/-- Claim-side pull behaviour (C4): prefer a live `x`, fall back to `y`;
a stream found exhausted is marked dead and the other is tried in the
same pass; with both dead the engine moves to the Euclid drain on
`a / e`. -/
def specPull (c : ECfg Int) : EView Int × Option Int :=
  match c.xA, c.xs with
  | true, p :: rest => (.run { c with st := specIngestX c.st p, xs := rest }, none)
  | true, [] =>
    match c.yA, c.ys with
    | true, q :: rest =>
      (.run { c with st := specIngestY c.st q, xA := false, ys := rest }, none)
    | true, [] => (.drain c.st.a c.st.e, none)
    | false, _ => (.drain c.st.a c.st.e, none)
  | false, _ =>
    match c.yA, c.ys with
    | true, q :: rest => (.run { c with st := specIngestY c.st q, ys := rest }, none)
    | true, [] => (.drain c.st.a c.st.e, none)
    | false, _ => (.drain c.st.a c.st.e, none)

/-- Claim-side transducer ingest (C3):
`(A,B,C,D) ← (A·b+B, A·a, C·b+D, C·a)`. -/
def specTIngest (s : TState) (a b : Int) : TState :=
  ⟨s.A * b + s.B, s.A * a, s.C * b + s.D, s.C * a⟩

/-- Claim-side transducer emit (C3): `(A,B,C,D) ← (C, D, A−C·k, B−D·k)`. -/
def specTEmit (s : TState) (k : Int) : TState :=
  ⟨s.C, s.D, s.A - s.C * k, s.B - s.D * k⟩

/-- Transducer probe as the claim words it (C3): the floors `⌊A/C⌋` and
`⌊B/D⌋`, a digit exactly when both are defined and equal. -/
def specTProbe (s : TState) : Option Int :=
  match specCandFloor s.A s.C, specCandFloor s.B s.D with
  | some f1, some f2 => if f1 = f2 then some f1 else none
  | _, _ => none

/-- Truncated-quotient probe — what the code actually computes (the
amended form of C3): the FastInteger division quotients of `A/C` and
`B/D`, truncated toward zero. -/
def specTProbeTrunc (s : TState) : Option Int :=
  match (if s.C = 0 then none else some (fastDivQ s.A s.C)),
      (if s.D = 0 then none else some (fastDivQ s.B s.D)) with
  | some f1, some f2 => if f1 = f2 then some f1 else none
  | _, _ => none

/-! ## Lemmas and claim theorems -/

theorem euc_zero (p : Nat) : euc p 0 = [] := by
  rw [euc]; simp

theorem euc_of_ne (p : Nat) {q : Nat} (h : q ≠ 0) :
    euc p q = (p / q) :: euc q (p % q) := by
  rw [euc]; simp [h]

theorem euc_ne_nil (p : Nat) {q : Nat} (h : q ≠ 0) : euc p q ≠ [] := by
  rw [euc_of_ne p h]; simp

/-- `euc 0 q = [0]` for a non-vacuum denominator. -/
theorem euc_zero_num {q : Nat} (h : q ≠ 0) : euc 0 q = [0] := by
  rw [euc_of_ne 0 h, Nat.zero_div, Nat.zero_mod, euc_zero]

/-- `euc v v = [1]`. -/
theorem euc_self {v : Nat} (h : v ≠ 0) : euc v v = [1] := by
  rw [euc_of_ne v h, Nat.div_self (Nat.pos_of_ne_zero h), Nat.mod_self, euc_zero]

/-- The quotient sequence is invariant under scaling both arguments. -/
theorem euc_scale (c : Nat) (hc : c ≠ 0) :
    ∀ q p : Nat, euc (c * p) (c * q) = euc p q := by
  intro q
  induction q using Nat.strong_induction_on with
  | _ q ih =>
    intro p
    rcases Nat.eq_zero_or_pos q with hq | hq
    · subst hq; simp [euc_zero]
    · have hq0 : q ≠ 0 := Nat.pos_iff_ne_zero.mp hq
      have hcq : c * q ≠ 0 := Nat.mul_ne_zero hc hq0
      rw [euc_of_ne _ hcq, euc_of_ne _ hq0,
        Nat.mul_div_mul_left p q (Nat.pos_of_ne_zero hc),
        Nat.mul_mod_mul_left c p q]
      exact congrArg _ (ih (p % q) (Nat.mod_lt _ hq) q)

/-- All terms of `euc v u` are positive when `u < v`. -/
theorem euc_terms_pos : ∀ u v : Nat, u < v → ∀ t ∈ euc v u, 1 ≤ t := by
  intro u
  induction u using Nat.strong_induction_on with
  | _ u ih =>
    intro v huv t ht
    rcases Nat.eq_zero_or_pos u with hu | hu
    · subst hu; rw [euc_zero] at ht; cases ht
    · have hu0 : u ≠ 0 := Nat.pos_iff_ne_zero.mp hu
      rw [euc_of_ne _ hu0] at ht
      rcases List.mem_cons.mp ht with h | h
      · subst h
        exact (Nat.one_le_div_iff hu).mpr (Nat.le_of_lt huv)
      · exact ih (v % u) (Nat.mod_lt _ hu) u (Nat.mod_lt _ hu) t h

/-- Terms of the tail of `euc p q` are positive. -/
theorem euc_tail_terms_pos (p : Nat) {q : Nat} (hq : q ≠ 0) :
    ∀ t ∈ euc q (p % q), 1 ≤ t :=
  euc_terms_pos (p % q) q (Nat.mod_lt _ (Nat.pos_of_ne_zero hq))

theorem lfold_nil (v : Nat × Nat) : lfold [] v = v := rfl

theorem lfold_cons (t : Nat) (l : List Nat) (v : Nat × Nat) :
    lfold (t :: l) v = lfold l (v.1 * t + v.2, v.1) := rfl

/-- The ingest fold is the linear action of the transposed continuant
matrix. -/
theorem lfold_eq (l : List Nat) : ∀ x y : Nat,
    lfold l (x, y) =
      (x * (matOf l).1 + y * (matOf l).2.2.1,
       x * (matOf l).2.1 + y * (matOf l).2.2.2) := by
  induction l with
  | nil => intro x y; simp [lfold, matOf]
  | cons t l ih =>
    intro x y
    rw [lfold_cons]
    show lfold l (x * t + y, x) = _
    rw [ih (x * t + y) x]
    simp only [matOf, Prod.mk.injEq]
    constructor <;> ring

/-- First column of the continuant matrix of `euc p q`: the reduced
numerator and denominator of `p / q`. -/
theorem matOf_euc : ∀ q : Nat, q ≠ 0 → ∀ p : Nat,
    (matOf (euc p q)).1 = p / Nat.gcd p q ∧
      (matOf (euc p q)).2.2.1 = q / Nat.gcd p q := by
  intro q
  induction q using Nat.strong_induction_on with
  | _ q ih =>
    intro hq p
    have hgrec : Nat.gcd p q = Nat.gcd q (p % q) := by
      rw [Nat.gcd_comm p q, Nat.gcd_rec q p, Nat.gcd_comm (p % q) q]
    rw [euc_of_ne p hq]
    rcases Nat.eq_zero_or_pos (p % q) with hr | hr
    · have hdvd : q ∣ p := Nat.dvd_of_mod_eq_zero hr
      have hg : Nat.gcd p q = q := Nat.gcd_eq_right hdvd
      rw [hr, euc_zero]
      refine ⟨?_, ?_⟩
      · show p / q * 1 + 0 = p / Nat.gcd p q
        rw [hg]; omega
      · show 1 = q / Nat.gcd p q
        rw [hg, Nat.div_self (Nat.pos_of_ne_zero hq)]
    · have hr0 : p % q ≠ 0 := Nat.pos_iff_ne_zero.mp hr
      obtain ⟨h1, h2⟩ := ih (p % q) (Nat.mod_lt _ (Nat.pos_of_ne_zero hq)) hr0 q
      obtain ⟨Q, hQ⟩ : Nat.gcd q (p % q) ∣ q := Nat.gcd_dvd_left _ _
      obtain ⟨R, hR⟩ : Nat.gcd q (p % q) ∣ (p % q) := Nat.gcd_dvd_right _ _
      set t0 := p / q with ht0
      set g := Nat.gcd q (p % q) with hgdef
      have hg0 : g ≠ 0 := Nat.gcd_ne_zero_left hq
      have hp : p = g * (Q * t0 + R) := by
        calc p = q * t0 + p % q := (Nat.div_add_mod p q).symm
        _ = g * Q * t0 + g * R := by rw [← hQ, ← hR]
        _ = g * (Q * t0 + R) := by ring
      have hqg : q / g = Q := by
        rw [hQ, Nat.mul_div_cancel_left Q (Nat.pos_of_ne_zero hg0)]
      have hrg : p % q / g = R := by
        rw [hR, Nat.mul_div_cancel_left R (Nat.pos_of_ne_zero hg0)]
      have hpg : p / g = Q * t0 + R := by
        rw [hp, Nat.mul_div_cancel_left _ (Nat.pos_of_ne_zero hg0)]
      constructor
      · show t0 * (matOf (euc q (p % q))).1 + (matOf (euc q (p % q))).2.2.1
            = p / Nat.gcd p q
        rw [h1, h2, hgrec, hqg, hrg, hpg]; ring
      · show (matOf (euc q (p % q))).1 = q / Nat.gcd p q
        rw [h1, hgrec]

theorem fastDivR_natAbs (n d : Int) :
    (fastDivR n d).natAbs = n.natAbs % d.natAbs := by
  unfold fastDivR
  split <;> simp only [Int.natAbs_neg, Int.natAbs_ofNat]

/-- Reconstruction identity of FastInteger division. -/
theorem fastDiv_add (n d : Int) : d * fastDivQ n d + fastDivR n d = n := by
  have hcast : (d.natAbs : Int) * ((n.natAbs / d.natAbs : Nat) : Int)
      + ((n.natAbs % d.natAbs : Nat) : Int) = (n.natAbs : Int) := by
    exact_mod_cast Nat.div_add_mod n.natAbs d.natAbs
  unfold fastDivQ fastDivR
  set K := n.natAbs / d.natAbs
  set M := n.natAbs % d.natAbs
  rcases lt_or_ge n 0 with hn | hn <;> rcases lt_or_ge d 0 with hd | hd
  · rw [if_pos (by omega), if_pos hn]
    have h1 : d = -(d.natAbs : Int) := by omega
    have h2 : n = -(n.natAbs : Int) := by omega
    rw [h1, h2]; linarith [hcast]
  · rw [if_neg (by omega), if_pos hn]
    have h1 : d = (d.natAbs : Int) := by omega
    have h2 : n = -(n.natAbs : Int) := by omega
    rw [h1, h2]; linarith [hcast]
  · rw [if_neg (by omega), if_neg (by omega)]
    have h1 : d = -(d.natAbs : Int) := by omega
    have h2 : n = (n.natAbs : Int) := by omega
    rw [h1, h2]; linarith [hcast]
  · rw [if_pos (by omega), if_neg (by omega)]
    have h1 : d = (d.natAbs : Int) := by omega
    have h2 : n = (n.natAbs : Int) := by omega
    rw [h1, h2]; linarith [hcast]

/-- On non-negative arguments FastInteger division is Nat division. -/
theorem fastDivQ_coe (a b : Nat) : fastDivQ (a : Int) (b : Int) = ((a / b : Nat) : Int) := by
  unfold fastDivQ
  rw [if_pos (by omega)]
  simp

theorem fastDivR_coe (a b : Nat) : fastDivR (a : Int) (b : Int) = ((a % b : Nat) : Int) := by
  unfold fastDivR
  rw [if_neg (by omega)]
  simp

theorem fastDivQ_negL (a b : Nat) :
    fastDivQ (-(a : Int)) (b : Int) = -((a / b : Nat) : Int) := by
  rcases Nat.eq_zero_or_pos a with ha | ha
  · subst ha; unfold fastDivQ; rw [if_pos (by omega)]; simp
  · unfold fastDivQ
    rw [if_neg (by omega)]
    simp

theorem fastDivQ_negR (a b : Nat) (hb : b ≠ 0) :
    fastDivQ (a : Int) (-(b : Int)) = -((a / b : Nat) : Int) := by
  unfold fastDivQ
  rw [if_neg (by omega)]
  simp

theorem fastDivQ_negs (a b : Nat) (hb : b ≠ 0) :
    fastDivQ (-(a : Int)) (-(b : Int)) = ((a / b : Nat) : Int) := by
  rcases Nat.eq_zero_or_pos a with ha | ha
  · subst ha; unfold fastDivQ; rw [if_neg (by omega)]; simp
  · unfold fastDivQ
    rw [if_pos (by omega)]
    simp

theorem fastDivR_negL (a b : Nat) :
    fastDivR (-(a : Int)) (b : Int) = -((a % b : Nat) : Int) := by
  rcases Nat.eq_zero_or_pos a with ha | ha
  · subst ha; unfold fastDivR; rw [if_neg (by omega)]; simp
  · unfold fastDivR
    rw [if_pos (by omega)]
    simp

theorem fastDivR_negR (a b : Nat) :
    fastDivR (a : Int) (-(b : Int)) = ((a % b : Nat) : Int) := by
  unfold fastDivR
  rw [if_neg (by omega)]
  simp

theorem fastDivR_negs (a b : Nat) :
    fastDivR (-(a : Int)) (-(b : Int)) = -((a % b : Nat) : Int) := by
  rcases Nat.eq_zero_or_pos a with ha | ha
  · subst ha; unfold fastDivR; rw [if_neg (by omega)]; simp
  · unfold fastDivR
    rw [if_pos (by omega)]
    simp

namespace Unary

theorem toInt_callNeg (s u : Nat) :
    (callNeg s u).toInt = (u : Int) - (s : Int) := by
  unfold callNeg
  split <;> simp only [toInt] <;> omega

theorem toInt_uadd (a b : Unary) : (uadd a b).toInt = a.toInt + b.toInt := by
  cases a with
  | pos la =>
    cases b with
    | pos lb => simp only [uadd, toInt]; omega
    | neg lb =>
      simp only [uadd]
      rw [toInt_callNeg]
      simp only [toInt]
      omega
  | neg la =>
    cases b with
    | pos lb =>
      simp only [uadd]
      rw [toInt_callNeg]
      simp only [toInt]
      omega
    | neg lb => simp only [uadd, toInt]; omega

theorem toInt_umul (a b : Unary) : (umul a b).toInt = a.toInt * b.toInt := by
  cases a <;> cases b <;>
    · simp only [umul, toInt]
      push_cast
      ring

theorem toInt_usub (a b : Unary) : (usub a b).toInt = a.toInt - b.toInt := by
  unfold usub
  rw [toInt_uadd, toInt_umul]
  simp only [toInt]
  push_cast
  ring

theorem isVac_iff (a : Unary) : a.isVac = true ↔ a.toInt = 0 := by
  cases a <;> simp [isVac, toInt]

theorem udiv_eq_none_iff (a b : Unary) : udiv a b = none ↔ b.isVac = true := by
  cases a <;> cases b <;>
    · simp only [udiv, isVac, beq_iff_eq]
      split <;> simp_all

theorem udiv_toInt (a b : Unary) (hb : b.isVac = false) :
    ∃ q r, udiv a b = some (q, r) ∧ q.toInt = fastDivQ a.toInt b.toInt ∧
      r.toInt = fastDivR a.toInt b.toInt := by
  cases a with
  | pos la =>
    cases b with
    | pos lb =>
      simp only [isVac, beq_eq_false_iff_ne, ne_eq] at hb
      refine ⟨pos (la / lb), pos (la % lb), by simp [udiv, hb], ?_, ?_⟩
      · simp only [toInt, fastDivQ_coe]
      · simp only [toInt, fastDivR_coe]
    | neg lb =>
      simp only [isVac, beq_eq_false_iff_ne, ne_eq] at hb
      refine ⟨neg (la / lb), pos (la % lb), by simp [udiv, hb], ?_, ?_⟩
      · simp only [toInt, fastDivQ_negR la lb hb]
      · simp only [toInt, fastDivR_negR]
  | neg la =>
    cases b with
    | pos lb =>
      simp only [isVac, beq_eq_false_iff_ne, ne_eq] at hb
      refine ⟨neg (la / lb), neg (la % lb), by simp [udiv, hb], ?_, ?_⟩
      · simp only [toInt, fastDivQ_negL]
      · simp only [toInt, fastDivR_negL]
    | neg lb =>
      simp only [isVac, beq_eq_false_iff_ne, ne_eq] at hb
      refine ⟨pos (la / lb), neg (la % lb), by simp [udiv, hb], ?_, ?_⟩
      · simp only [toInt, fastDivQ_negs la lb hb]
      · simp only [toInt, fastDivR_negs]

end Unary

theorem tRunAcc_eq (src : Nat → Option (Int × Int)) :
    ∀ (n : Nat) (v : TView) (acc : List Int),
      tRunAcc src n v acc
        = (acc.reverse ++ (tRun src n v).1, (tRun src n v).2) := by
  intro n
  induction n with
  | zero => intro v acc; simp [tRunAcc, tRun]
  | succ n ih =>
    intro v acc
    show (match tStep src v with
      | (v1, some k) => tRunAcc src n v1 (k :: acc)
      | (v1, none) => tRunAcc src n v1 acc) = _
    rcases hs : tStep src v with ⟨v1, out⟩
    rcases out with _ | k <;>
      simp [tRun, hs, ih]

theorem euclidInt_of_ne (p : Int) {q : Int} (h : q ≠ 0) :
    euclidInt p q = fastDivQ p q :: euclidInt q (fastDivR p q) := by
  rw [euclidInt]; simp [h]

theorem euclidInt_zero (p : Int) : euclidInt p 0 = [] := by
  rw [euclidInt]; simp

/-- Folded reconstruction of the Euclid quotient list is exact. -/
theorem cfFold_euclidInt : ∀ (n : Nat) (p q : Int), q.natAbs = n → q ≠ 0 →
    cfFold (euclidInt p q) = (p : ℚ) / (q : ℚ) := by
  intro n
  induction n using Nat.strong_induction_on with
  | _ n ih =>
    intro p q hn hq
    have hqQ : (q : ℚ) ≠ 0 := Int.cast_ne_zero.mpr hq
    have hrec := fastDiv_add p q
    rw [euclidInt_of_ne p hq]
    rcases eq_or_ne (fastDivR p q) 0 with hr | hr
    · rw [hr, euclidInt_zero]
      show (fastDivQ p q : ℚ) + (0 : ℚ)⁻¹ = (p : ℚ) / (q : ℚ)
      rw [hr] at hrec
      have hpe : p = q * fastDivQ p q := by linarith [hrec]
      have : (p : ℚ) = (q : ℚ) * (fastDivQ p q : ℚ) := by exact_mod_cast hpe
      rw [this]
      field_simp
    · have hlt : (fastDivR p q).natAbs < n := by
        rw [fastDivR_natAbs, ← hn]
        exact Nat.mod_lt _ (Int.natAbs_pos.mpr hq)
      have ihq := ih _ hlt q (fastDivR p q) rfl hr
      show (fastDivQ p q : ℚ) + (cfFold (euclidInt q (fastDivR p q)))⁻¹
          = (p : ℚ) / (q : ℚ)
      rw [ihq]
      have hrQ : ((fastDivR p q : Int) : ℚ) ≠ 0 := Int.cast_ne_zero.mpr hr
      have hp : (p : ℚ) = (q : ℚ) * (fastDivQ p q : ℚ) + (fastDivR p q : ℚ) := by
        exact_mod_cast congrArg (fun z : Int => (z : ℚ)) hrec.symm
      rw [hp, inv_div]
      field_simp
      ring

/-! ### Engine run lemmas -/

theorem engRun_zero (ops : MOps α) (v : EView α) : engRun ops 0 v = some ([], v) := rfl

theorem engRun_succ (ops : MOps α) (n : Nat) (v : EView α) :
    engRun ops (n + 1) v =
      match engStep ops v with
      | none => none
      | some (v1, out) =>
        match engRun ops n v1 with
        | none => none
        | some (outs, vf) =>
          some ((match out with | some k => k :: outs | none => outs), vf) := rfl

/-- Runs compose: the yields of `n + m` passes are the yields of the
first `n` followed by those of the next `m`. -/
theorem engRun_add (ops : MOps α) (n : Nat) :
    ∀ (m : Nat) (v : EView α),
      engRun ops (n + m) v =
        match engRun ops n v with
        | none => none
        | some (o1, v1) =>
          match engRun ops m v1 with
          | none => none
          | some (o2, v2) => some (o1 ++ o2, v2) := by
  induction n with
  | zero =>
    intro m v
    simp [engRun_zero, Nat.zero_add]
    rcases engRun ops m v with _ | ⟨o2, v2⟩ <;> simp
  | succ n ih =>
    intro m v
    have hshift : n + 1 + m = (n + m) + 1 := by omega
    rw [hshift, engRun_succ ops (n + m) v, engRun_succ ops n v]
    rcases hs : engStep ops v with _ | ⟨v1, out⟩
    · rfl
    · dsimp only
      rw [ih m v1]
      rcases h1 : engRun ops n v1 with _ | ⟨o1, vf⟩
      · rfl
      · dsimp only
        rcases h2 : engRun ops m vf with _ | ⟨o2, v2⟩
        · rcases out with _ | k <;> rfl
        · rcases out with _ | k <;> simp

/-- A halted engine yields nothing, forever. -/
theorem engRun_halted (ops : MOps α) : ∀ n : Nat,
    engRun ops n (.halted) = some ([], .halted) := by
  intro n
  induction n with
  | zero => rfl
  | succ n ih => rw [engRun_succ]; simp [engStep, ih]

/-- The drain phase on a pair of naturals yields exactly the Euclid
quotient list, then halts. -/
theorem engRun_drain : ∀ (u v : Nat),
    engRun intOps ((euc v u).length + 1) (.drain (v : Int) (u : Int))
      = some ((euc v u).map (fun t => (t : Int)), .halted) := by
  intro u
  induction u using Nat.strong_induction_on with
  | _ u ih =>
    intro v
    rcases Nat.eq_zero_or_pos u with hu | hu
    · subst hu
      rw [euc_zero]
      rw [engRun_succ]
      simp [engStep, intOps, engRun_zero]
    · have hu0 : u ≠ 0 := Nat.pos_iff_ne_zero.mp hu
      have hlen : (euc v u).length = (euc u (v % u)).length + 1 := by
        rw [euc_of_ne v hu0]; simp
      rw [hlen]
      rw [engRun_succ]
      have hstep : engStep intOps (.drain (v : Int) (u : Int))
          = some (.drain (u : Int) ((v % u : Nat) : Int), some ((v / u : Nat) : Int)) := by
        simp [engStep, intOps, hu0, fastDivQ_coe, fastDivR_coe]
      rw [hstep]
      dsimp only
      rw [ih (v % u) (Nat.mod_lt _ hu) u]
      dsimp only
      rw [euc_of_ne v hu0]
      simp

/-! ### The integer engine step (C1, C4, C10 support) -/

/-- C10 core: `get_floor` on the FastInteger backend never raises and
returns exactly the claim-side candidate (undefined iff vacuum, else the
true floor). -/
theorem mGetFloor_int (n d : Int) :
    mGetFloor intOps n d = some (specCandFloor n d) := by
  rcases eq_or_ne d 0 with hd | hd
  · subst hd
    simp [mGetFloor, specCandFloor, intOps]
  · simp only [mGetFloor, specCandFloor, intOps]
    rw [if_neg (by simp [hd]), if_neg (by simp [hd])]
    simp only [hd, if_false, id]
    split
    · next heq => rw [heq]
    · next hne => simp only [Option.some.injEq]; congr 1; ring

theorem length_filterMap_id_le (l : List (Option Int)) :
    (l.filterMap id).length ≤ l.length := by
  induction l with
  | nil => simp
  | cons c rest ih => cases c <;> simp [List.filterMap_cons] <;> omega

/-- Valid-candidate bookkeeping: a full-length filter whose survivors
all equal `k` is the same as every entry being `some k`. -/
theorem filterMap_consensus (k : Int) (l : List (Option Int)) :
    (((l.filterMap id).length = l.length ∧ ∀ x ∈ l.filterMap id, x = k)
      ↔ ∀ c ∈ l, c = some k) := by
  induction l with
  | nil => simp
  | cons c rest ih =>
    cases c with
    | none =>
      rw [show List.filterMap id (none :: rest) = List.filterMap id rest from rfl]
      constructor
      · rintro ⟨hlen, -⟩
        exfalso
        have hle := length_filterMap_id_le rest
        simp only [List.length_cons] at hlen
        omega
      · intro h
        exact absurd (h none (by simp)) (by simp)
    | some x =>
      rw [show List.filterMap id (some x :: rest) = x :: List.filterMap id rest from rfl]
      simp only [List.length_cons, List.forall_mem_cons]
      constructor
      · rintro ⟨hlen, hx, hall⟩
        have hrest := ih.mp ⟨by omega, hall⟩
        exact ⟨by rw [hx], hrest⟩
      · rintro ⟨hx, hrest⟩
        obtain ⟨hlen, hall⟩ := ih.mpr hrest
        have hxk : x = k := by injection hx
        exact ⟨by omega, hxk, hall⟩

/-- The engine's consensus test on the integer backend: `none` head
kills it, otherwise a digit iff every candidate equals the head. -/
theorem mConsensus_int_eq (cands : List (Option Int)) :
    mConsensus intOps cands =
      match cands with
      | [] => none
      | none :: _ => none
      | some k :: _ => if ∀ c ∈ cands, c = some k then some k else none := by
  rcases cands with _ | ⟨c0, rest⟩
  · rfl
  rcases c0 with _ | k
  · unfold mConsensus
    rcases hfm : List.filterMap id (none :: rest) with _ | ⟨v, vs⟩
    · rfl
    · dsimp only
      rw [if_neg]
      rintro ⟨hlen, -⟩
      have h0 : List.filterMap id (none :: rest) = List.filterMap id rest := rfl
      rw [h0] at hfm
      have hle := length_filterMap_id_le rest
      rw [hfm] at hle
      simp only [List.length_cons] at hlen hle
      omega
  · unfold mConsensus
    rw [show List.filterMap id (some k :: rest) = k :: List.filterMap id rest from rfl]
    dsimp only
    have hiff : ((k :: List.filterMap id rest).length
          = (some k :: rest : List (Option Int)).length
        ∧ (List.filterMap id rest).all
            (fun c => intOps.toInt c == intOps.toInt k) = true)
        ↔ ∀ c ∈ (some k :: rest : List (Option Int)), c = some k := by
      rw [← filterMap_consensus k (some k :: rest)]
      rw [show List.filterMap id (some k :: rest) = k :: List.filterMap id rest from rfl]
      simp only [List.length_cons, List.forall_mem_cons, List.all_eq_true, beq_iff_eq,
        intOps, id_eq]
      constructor
      · rintro ⟨hlen, hall⟩
        exact ⟨by omega, trivial, fun x hx => hall x hx⟩
      · rintro ⟨hlen, -, hall⟩
        exact ⟨by omega, fun x hx => hall x hx⟩
    split
    · next hcond => exact (if_pos (hiff.mp hcond)).symm
    · next hcond =>
      rw [if_neg]
      intro hforall
      exact hcond (hiff.mpr hforall)

/-- The engine's consensus on the claim-side candidate list is the
claim-side consensus. -/
theorem mConsensus_int (s : GS Int) (xA yA : Bool) :
    mConsensus intOps (specCands s xA yA) = specConsensus s xA yA := by
  rw [mConsensus_int_eq]
  unfold specConsensus
  have hshape : specCands s xA yA
      = specCandFloor s.a s.e
        :: ((if xA && yA then
              [specCandFloor (s.a + s.b + s.c + s.d) (s.e + s.f + s.g + s.h)] else [])
          ++ (if yA then [specCandFloor (s.a + s.b) (s.e + s.f)] else [])
          ++ (if xA then [specCandFloor (s.a + s.c) (s.e + s.g)] else [])) := rfl
  rw [hshape]
  rcases hc : specCandFloor s.a s.e with _ | k <;> rfl

/-- The integer candidate list never raises and is the claim-side list. -/
theorem mCands_int (s : GS Int) (xA yA : Bool) :
    mCands intOps s xA yA = some (specCands s xA yA) := by
  cases xA <;> cases yA <;>
    · simp only [mCands, mGetFloor_int]
      simp [specCands, intOps]

/-- Full characterization of one integer-engine main-loop pass:
emit on claim-side consensus, else the claim-side pull. -/
theorem engStep_int (c : ECfg Int) :
    engStep intOps (.run c) =
      some (match specConsensus c.st c.xA c.yA with
        | some k => (.run { c with st := specEmit c.st k }, some k)
        | none => specPull c) := by
  unfold engStep
  dsimp only
  rw [mCands_int]
  dsimp only
  rw [mConsensus_int]
  rcases hcons : specConsensus c.st c.xA c.yA with _ | k
  · dsimp only
    unfold specPull
    rcases c with ⟨st, xs, ys, xA, yA⟩
    cases xA <;> cases xs <;> cases yA <;> cases ys <;>
      simp [GS.ingestX, GS.ingestY, specIngestX, specIngestY, intOps]
  · dsimp only
    have hemit : c.st.emit intOps k = specEmit c.st k := by
      simp [GS.emit, specEmit, intOps]
    rw [hemit]

/-! ### Transducer run lemmas -/

theorem tRun_succ (src : Nat → Option (Int × Int)) (n : Nat) (v : TView) :
    tRun src (n + 1) v =
      match tStep src v with
      | (v1, out) =>
        match tRun src n v1 with
        | (outs, vf) =>
          ((match out with | some k => k :: outs | none => outs), vf) := rfl

/-- A halted transducer yields nothing, forever. -/
theorem tRun_halted (src : Nat → Option (Int × Int)) : ∀ n : Nat,
    tRun src n .halted = ([], .halted) := by
  intro n
  induction n with
  | zero => rfl
  | succ n ih => rw [tRun_succ]; simp [tStep, ih]

/-- The transducer drain phase yields exactly the Euclid quotients of
its (non-negative) pair, then halts. -/
theorem tRun_drain (src : Nat → Option (Int × Int)) : ∀ (u v : Nat),
    tRun src ((euc v u).length + 1) (.drain (v : Int) (u : Int))
      = ((euc v u).map (fun t => (t : Int)), .halted) := by
  intro u
  induction u using Nat.strong_induction_on with
  | _ u ih =>
    intro v
    rcases Nat.eq_zero_or_pos u with hu | hu
    · subst hu
      rw [euc_zero, tRun_succ]
      simp [tStep, tRun]
    · have hu0 : u ≠ 0 := Nat.pos_iff_ne_zero.mp hu
      have hlen : (euc v u).length = (euc u (v % u)).length + 1 := by
        rw [euc_of_ne v hu0]; simp
      rw [hlen, tRun_succ]
      have hstep : tStep src (.drain (v : Int) (u : Int))
          = (.drain (u : Int) ((v % u : Nat) : Int), some ((v / u : Nat) : Int)) := by
        simp [tStep, hu0, fastDivQ_coe, fastDivR_coe]
      rw [hstep]
      dsimp only
      rw [ih (v % u) (Nat.mod_lt _ hu) u]
      dsimp only
      rw [euc_of_ne v hu0]
      simp

/-! ### Claim C1 -/

/-- C1: in each main-loop pass the engine computes the liveness-guarded
candidate floors, treating a vacuum denominator as undefined, and emits
a digit `k` exactly when every computed candidate is defined and all
agree — in which case it yields `k`, applies the `emit(k)` substitution,
and consumes no input term. -/
theorem claim_C1 (c : ECfg Int) (k : Int) :
    engStep intOps (.run c) = some (.run { c with st := specEmit c.st k }, some k)
      ↔ specConsensus c.st c.xA c.yA = some k := by
  rw [engStep_int]
  rcases hcons : specConsensus c.st c.xA c.yA with _ | k2 <;> dsimp only
  · constructor
    · intro h
      exfalso
      have hsnd : (specPull c).2 = none := by
        unfold specPull
        rcases c with ⟨st, xs, ys, xA, yA⟩
        cases xA <;> cases xs <;> cases yA <;> cases ys <;> rfl
      have h2 := Option.some.inj h
      have h3 := congrArg Prod.snd h2
      rw [hsnd] at h3
      exact Option.noConfusion h3
    · intro h
      exact Option.noConfusion h
  · constructor
    · intro h
      have h2 := Option.some.inj h
      have h3 := congrArg Prod.snd h2
      have h4 : k2 = k := by
        simpa using h3
      rw [h4]
    · intro h
      have h4 : k2 = k := by injection h
      subst h4
      rfl

/-! ### Claim C4 -/

/-- C4: with no consensus the engine pulls from a live `x` first, only
then from `y` (the mirror substitution), marking a stream found
exhausted dead and retrying with the other in the same pass — all
captured by `specPull`; once both inputs are dead it degenerates into
the direct Euclid drain on `a / e`, yielding its quotients until the
denominator is vacuum, and then halts permanently with no further
output. -/
theorem claim_C4 :
    (∀ c : ECfg Int, specConsensus c.st c.xA c.yA = none →
        engStep intOps (.run c) = some (specPull c))
    ∧ (∀ num den : Int, engStep intOps (.drain num den)
        = some (if den = 0 then (.halted, none)
            else (.drain den (fastDivR num den), some (fastDivQ num den))))
    ∧ (∀ u v : Nat, engRun intOps ((euc v u).length + 1) (.drain (v : Int) (u : Int))
        = some ((euc v u).map (fun t => (t : Int)), .halted))
    ∧ (∀ n : Nat, engRun intOps n (.halted : EView Int) = some ([], .halted)) := by
  refine ⟨?_, ?_, engRun_drain, engRun_halted intOps⟩
  · intro c hcons
    rw [engStep_int, hcons]
  · intro num den
    rcases eq_or_ne den 0 with hd | hd
    · subst hd
      simp [engStep, intOps]
    · simp [engStep, intOps, hd]

/-- Witness for C4 at a concrete no-consensus configuration. -/
theorem claim_C4_witness :
    engStep intOps (.run ⟨addSeed, [], [], false, false⟩)
      = some (specPull ⟨addSeed, [], [], false, false⟩) := by
  apply claim_C4.1
  decide

/-! ### Claim C10 -/

/-- C10: `get_floor(num, den)` returns `None` exactly when `den` is
vacuum; otherwise its result's integer value is the true floor of
`num / den` (the truncated backend quotient, adjusted by the difference
whenever truncation toward zero disagrees with the floor). -/
theorem claim_C10 (num den : Int) :
    (mGetFloor intOps num den = some none ↔ den = 0)
      ∧ (den ≠ 0 → mGetFloor intOps num den = some (some (Int.fdiv num den))) := by
  constructor
  · rw [mGetFloor_int]
    unfold specCandFloor
    constructor
    · intro h
      by_contra hd
      rw [if_neg hd] at h
      simp at h
    · intro h
      rw [if_pos h]
  · intro hd
    rw [mGetFloor_int]
    unfold specCandFloor
    rw [if_neg hd]

/-- Witness for C10: a negative ratio with nonzero remainder is floored,
not truncated. -/
theorem claim_C10_witness : mGetFloor intOps (-3) 2 = some (some (-2)) := by
  have h := (claim_C10 (-3) 2).2 (by decide)
  rw [h]
  decide

/-! ### Claim C8 -/

/-- C8: `head` observes the buffered value without mutation, `consume`
returns the buffered head and advances by pulling the next producer
value, and `consume` fails — leaving the stream unchanged — exactly when
the exhausted sentinel was already observable as `head`. -/
theorem claim_C8 {α : Type} (s : MStream α) :
    ((s.consume).1 = none ↔ s.head = none)
      ∧ (s.head = none → s.consume = (none, s))
      ∧ (∀ v, s.head = some v → s.consume = (some v, streamOf s.rest)) := by
  rcases s with ⟨buf, rest⟩
  rcases buf with _ | v <;>
    simp [MStream.consume, MStream.head]

/-- Witness for C8: a charged two-term stream and an exhausted one. -/
theorem claim_C8_witness :
    (streamOf ([5, 6] : List Int)).consume = (some 5, streamOf [6])
      ∧ (streamOf ([] : List Int)).consume = (none, streamOf []) := by
  constructor
  · exact (claim_C8 (streamOf [5, 6])).2.2 5 rfl
  · exact (claim_C8 (streamOf [])).2.1 rfl

/-! ### Claim C2 -/

/-- Sufficient fuel realizes the Euclid loop as its quotient list. -/
theorem mEuclidRun_int : ∀ (m : Nat) (p q : Int), q.natAbs = m →
    mEuclidRun intOps ((euclidInt p q).length + 1) p q
      = some (euclidInt p q, none) := by
  intro m
  induction m using Nat.strong_induction_on with
  | _ m ih =>
    intro p q hm
    rcases eq_or_ne q 0 with hq | hq
    · subst hq
      rw [euclidInt_zero]
      simp [mEuclidRun, intOps]
    · rw [euclidInt_of_ne p hq]
      show mEuclidRun intOps ((euclidInt q (fastDivR p q)).length + 1 + 1) p q = _
      rw [mEuclidRun]
      have hvac : intOps.isVacuum q = false := by
        simp [intOps, hq]
      rw [hvac]
      have hdiv : intOps.div p q = some (fastDivQ p q, fastDivR p q) := by
        simp [intOps, hq]
      simp only [Bool.false_eq_true, if_false, hdiv]
      have hlt : (fastDivR p q).natAbs < m := by
        rw [fastDivR_natAbs, ← hm]
        exact Nat.mod_lt _ (Int.natAbs_pos.mpr hq)
      rw [ih _ hlt q (fastDivR p q) rfl]

/-- On non-negative inputs the integer Euclid list is the ℕ one. -/
theorem euclidInt_coe : ∀ (m : Nat) (p q : Nat), q = m →
    euclidInt (p : Int) (q : Int) = (euc p q).map (fun t => (t : Int)) := by
  intro m
  induction m using Nat.strong_induction_on with
  | _ m ih =>
    intro p q hm
    rcases Nat.eq_zero_or_pos q with hq | hq
    · subst hq
      simp [euc_zero, euclidInt_zero]
    · have hq0 : q ≠ 0 := Nat.pos_iff_ne_zero.mp hq
      have hqz : (q : Int) ≠ 0 := by exact_mod_cast hq0
      rw [euclidInt_of_ne _ hqz, euc_of_ne _ hq0, fastDivQ_coe, fastDivR_coe]
      rw [ih (p % q) (by rw [← hm]; exact Nat.mod_lt _ hq) q (p % q) rfl]
      rfl

theorem euclidInt_ten_seven : euclidInt 10 7 = [1, 2, 3] := by
  have h1 : euclidInt 10 7 = ((euc 10 7).map (fun t => (t : Int))) :=
    euclidInt_coe 7 10 7 rfl
  rw [h1]
  rw [euc_of_ne 10 (show (7 : Nat) ≠ 0 by decide)]
  rw [show (10 % 7 : Nat) = 3 from by decide, show (10 / 7 : Nat) = 1 from by decide]
  rw [euc_of_ne 7 (show (3 : Nat) ≠ 0 by decide)]
  rw [show (7 % 3 : Nat) = 1 from by decide, show (7 / 3 : Nat) = 2 from by decide]
  rw [euc_of_ne 3 (show (1 : Nat) ≠ 0 by decide)]
  rw [show (3 % 1 : Nat) = 0 from by decide, show (3 / 1 : Nat) = 3 from by decide]
  rw [euc_zero]
  rfl

theorem euclidInt_cases_rest :
    euclidInt 415 93 = [4, 2, 6, 7] ∧ euclidInt 7 1 = [7] := by
  constructor
  · have h1 : euclidInt 415 93 = ((euc 415 93).map (fun t => (t : Int))) :=
      euclidInt_coe 93 415 93 rfl
    rw [h1]
    rw [euc_of_ne 415 (show (93 : Nat) ≠ 0 by decide)]
    rw [show (415 % 93 : Nat) = 43 from by decide,
      show (415 / 93 : Nat) = 4 from by decide]
    rw [euc_of_ne 93 (show (43 : Nat) ≠ 0 by decide)]
    rw [show (93 % 43 : Nat) = 7 from by decide,
      show (93 / 43 : Nat) = 2 from by decide]
    rw [euc_of_ne 43 (show (7 : Nat) ≠ 0 by decide)]
    rw [show (43 % 7 : Nat) = 1 from by decide,
      show (43 / 7 : Nat) = 6 from by decide]
    rw [euc_of_ne 7 (show (1 : Nat) ≠ 0 by decide)]
    rw [show (7 % 1 : Nat) = 0 from by decide,
      show (7 / 1 : Nat) = 7 from by decide]
    rw [euc_zero]
    rfl
  · have h1 : euclidInt 7 1 = ((euc 7 1).map (fun t => (t : Int))) :=
      euclidInt_coe 1 7 1 rfl
    rw [h1]
    rw [euc_of_ne 7 (show (1 : Nat) ≠ 0 by decide)]
    rw [show (7 % 1 : Nat) = 0 from by decide,
      show (7 / 1 : Nat) = 7 from by decide]
    rw [euc_zero]
    rfl

/-- C2: the Euclid generator terminates when the denominator is vacuum,
else yields the quotient and rotates in the remainder; the sequence is
finite (realized by finitely many loop passes), its folded
reconstruction is exactly `p / q`, and the three concrete cases hold. -/
theorem claim_C2 :
    (∀ p q : Int, q ≠ 0 →
        euclidInt p q = fastDivQ p q :: euclidInt q (fastDivR p q))
      ∧ (∀ p : Int, euclidInt p 0 = [])
      ∧ (∀ p q : Int, q ≠ 0 → ∃ n : Nat,
          mEuclidRun intOps n p q = some (euclidInt p q, none))
      ∧ (∀ p q : Int, q ≠ 0 → cfFold (euclidInt p q) = (p : ℚ) / (q : ℚ))
      ∧ euclidInt 10 7 = [1, 2, 3]
      ∧ euclidInt 415 93 = [4, 2, 6, 7]
      ∧ euclidInt 7 1 = [7] := by
  refine ⟨fun p q hq => euclidInt_of_ne p hq, euclidInt_zero, ?_, ?_, ?_, ?_, ?_⟩
  · intro p q hq
    exact ⟨(euclidInt p q).length + 1, mEuclidRun_int q.natAbs p q rfl⟩
  · intro p q hq
    exact cfFold_euclidInt q.natAbs p q rfl hq
  · exact euclidInt_ten_seven
  · exact euclidInt_cases_rest.1
  · exact euclidInt_cases_rest.2

/-- Witness for C2 at `10 / 7`. -/
theorem claim_C2_witness :
    cfFold (euclidInt 10 7) = (10 : ℚ) / (7 : ℚ) :=
  claim_C2.2.2.2.1 10 7 (by decide)

/-! ### Claim C3 -/

/-- C3 as frozen is false: the transducer probe compares the truncated
backend quotients, not floors; on the state `(-3, -3, 2, 2)` it forces
the digit `-1` although `⌊-3/2⌋ = -2`. -/
theorem claim_C3_counterexample :
    TState.probe ⟨-3, -3, 2, 2⟩ = some (-1)
      ∧ specTProbe ⟨-3, -3, 2, 2⟩ = some (-2)
      ∧ Int.fdiv (-3) 2 = -2 := by
  refine ⟨by decide, ?_, by decide⟩
  show specTProbe ⟨-3, -3, 2, 2⟩ = some (-2)
  decide

/-- C3 amended: `ingest`/`emit` act by the stated substitutions; `probe`
compares the two truncated quotients (undefined on a vacuum
denominator) and forces a digit exactly when both are defined and equal;
an exhausted source is drained through the Euclid loop on `A / C`, one
quotient per pass, after which the transducer halts for good. -/
theorem claim_C3_amended :
    (∀ (s : TState) (a b : Int), s.ingest a b = specTIngest s a b)
      ∧ (∀ (s : TState) (k : Int), s.emit k = specTEmit s k)
      ∧ (∀ s : TState, s.probe = specTProbeTrunc s)
      ∧ (∀ (src : Nat → Option (Int × Int)) (s : TState) (idx : Nat),
          s.probe = none → src idx = none →
            tStep src (.run s idx true) = (.drain s.A s.C, none))
      ∧ (∀ (src : Nat → Option (Int × Int)) (num den : Int),
          tStep src (.drain num den)
            = if den = 0 then (.halted, none)
              else (.drain den (fastDivR num den), some (fastDivQ num den)))
      ∧ (∀ (src : Nat → Option (Int × Int)) (u v : Nat),
          tRun src ((euc v u).length + 1) (.drain (v : Int) (u : Int))
            = ((euc v u).map (fun t => (t : Int)), .halted))
      ∧ (∀ (src : Nat → Option (Int × Int)) (n : Nat),
          tRun src n .halted = ([], .halted)) := by
  refine ⟨fun s a b => rfl, fun s k => rfl, fun s => rfl, ?_, ?_,
    fun src => tRun_drain src, tRun_halted⟩
  · intro src s idx hp hsrc
    simp [tStep, hp, hsrc]
  · intro src num den
    rcases eq_or_ne den 0 with hd | hd
    · subst hd
      simp [tStep]
    · simp [tStep, hd]

/-- Witness for C3 (amended) at a concrete exhausted source. -/
theorem claim_C3_amended_witness :
    tStep (fun _ => none) (.run ⟨1, 0, 0, 1⟩ 0 true) = (.drain 1 0, none) := by
  exact claim_C3_amended.2.2.2.1 (fun _ => none) ⟨1, 0, 0, 1⟩ 0 (by decide) rfl

/-! ### The two backend embeddings of ℕ -/

theorem fdiv_coe (m n : Nat) :
    Int.fdiv (m : Int) (n : Int) = ((m / n : Nat) : Int) := by
  rw [Int.fdiv_eq_ediv _ (by positivity)]
  exact_mod_cast rfl

/-- The FastInteger backend embeds ℕ. -/
theorem membInt : MEmb intOps (fun n => (n : Int)) := by
  constructor
  · intro m n; simp [intOps]
  · intro m n; simp [intOps]
  · intro m n hnm; simp only [intOps]; omega
  · intro m n hn
    simp [intOps, Nat.cast_eq_zero, hn, fastDivQ_coe, fastDivR_coe]
  · intro m; by_cases hm : m = 0 <;> simp [intOps, hm]
  · intro m; rfl

/-- The unary backend embeds ℕ as `NonNegativeInteger` masses. -/
theorem membU : MEmb uOps Unary.pos := by
  constructor
  · intro m n; rfl
  · intro m n; rfl
  · intro m n hnm
    show Unary.usub (.pos m) (.pos n) = .pos (m - n)
    simp [Unary.usub, Unary.umul, Unary.uadd, Unary.callNeg, hnm]
  · intro m n hn
    show Unary.udiv (.pos m) (.pos n) = _
    simp [Unary.udiv, hn]
  · intro m; rfl
  · intro m; rfl

/-! ### Shadow-run infrastructure -/

theorem lfoldI_eq (l : List Nat) : ∀ x y : Int,
    lfoldI (l.map (fun t : Nat => (t : Int))) (x, y) =
      (x * ((matOf l).1 : Int) + y * ((matOf l).2.2.1 : Int),
       x * ((matOf l).2.1 : Int) + y * ((matOf l).2.2.2 : Int)) := by
  induction l with
  | nil => intro x y; simp [lfoldI, matOf]
  | cons t l ih =>
    intro x y
    rw [List.map_cons]
    show lfoldI (l.map _) (x * (t : Int) + y, x) = _
    rw [ih (x * (t : Int) + y) x]
    simp only [matOf, Prod.mk.injEq]
    constructor <;> push_cast <;> ring

theorem lfold_zero : ∀ l : List Nat, lfold l (0, 0) = (0, 0) := by
  intro l
  induction l with
  | nil => rfl
  | cons t l ih => rw [lfold_cons]; simpa using ih

theorem mGetFloor_emb {α : Type} {ops : MOps α} {ι : Nat → α}
    (h : MEmb ops ι) (m n : Nat) :
    mGetFloor ops (ι m) (ι n) = some ((nCandFloor m n).map ι) := by
  unfold mGetFloor nCandFloor
  rw [h.vac]
  by_cases hn : n = 0
  · simp [hn]
  · rw [if_neg (by simp [hn]), if_neg hn]
    rw [h.div m n hn]
    dsimp only
    rw [h.toInt n, h.toInt (m / n), h.toInt m]
    rw [if_neg (by exact_mod_cast hn)]
    rw [if_pos (fdiv_coe m n).symm]
    rfl

theorem ingestX_emb {α : Type} {ops : MOps α} {ι : Nat → α}
    (h : MEmb ops ι) (s : GS Nat) (p : Nat) :
    (s.emb ι).ingestX ops (ι p) = (nIngestX s p).emb ι := by
  simp [GS.ingestX, nIngestX, GS.emb, h.add, h.mul]

theorem ingestY_emb {α : Type} {ops : MOps α} {ι : Nat → α}
    (h : MEmb ops ι) (s : GS Nat) (q : Nat) :
    (s.emb ι).ingestY ops (ι q) = (nIngestY s q).emb ι := by
  simp [GS.ingestY, nIngestY, GS.emb, h.add, h.mul]

theorem length_filterMap_le_all {β : Type} (l : List (Option β)) :
    (l.filterMap id).length ≤ l.length := by
  induction l with
  | nil => simp
  | cons c rest ih => cases c <;> simp [List.filterMap_cons] <;> omega

theorem filterMap_consensus_all {β : Type} (k : β) (l : List (Option β)) :
    (((l.filterMap id).length = l.length ∧ ∀ x ∈ l.filterMap id, x = k)
      ↔ ∀ c ∈ l, c = some k) := by
  induction l with
  | nil => simp
  | cons c rest ih =>
    cases c with
    | none =>
      rw [show List.filterMap id (none :: rest) = List.filterMap id rest from rfl]
      constructor
      · rintro ⟨hlen, -⟩
        exfalso
        have hle := length_filterMap_le_all rest
        simp only [List.length_cons] at hlen
        omega
      · intro hall
        exact absurd (hall none (by simp)) (by simp)
    | some x =>
      rw [show List.filterMap id (some x :: rest) = x :: List.filterMap id rest from rfl]
      simp only [List.length_cons, List.forall_mem_cons]
      constructor
      · rintro ⟨hlen, hx, hall⟩
        exact ⟨by rw [hx], ih.mp ⟨by omega, hall⟩⟩
      · rintro ⟨hx, hrest⟩
        obtain ⟨hlen, hall⟩ := ih.mpr hrest
        have hxk : x = k := by injection hx
        exact ⟨by omega, hxk, hall⟩

theorem filterMap_id_map {α : Type} (ι : Nat → α) :
    ∀ l : List (Option Nat),
      (l.map (Option.map ι)).filterMap id = (l.filterMap id).map ι := by
  intro l
  induction l with
  | nil => rfl
  | cons c rest ih => cases c <;> simp [List.filterMap_cons, ih]

theorem mConsensus_embL {α : Type} {ops : MOps α} {ι : Nat → α}
    (h : MEmb ops ι) (hinj : Function.Injective ι) :
    ∀ l : List (Option Nat),
      mConsensus ops (l.map (Option.map ι)) = (nConsensusL l).map ι := by
  intro l
  rcases l with _ | ⟨c0, rest⟩
  · rfl
  rcases c0 with _ | k
  · show mConsensus ops (none :: rest.map (Option.map ι)) = none
    unfold mConsensus
    rcases hfm : (none :: rest.map (Option.map ι) : List (Option α)).filterMap id
      with _ | ⟨v, vs⟩
    · rfl
    · dsimp only
      rw [if_neg]
      rintro ⟨hlen, -⟩
      have h0 : (none :: rest.map (Option.map ι) : List (Option α)).filterMap id
          = (rest.map (Option.map ι)).filterMap id := rfl
      rw [h0] at hfm
      have hle := length_filterMap_le_all (rest.map (Option.map ι))
      rw [hfm] at hle
      simp only [List.length_cons, List.length_map] at hlen hle
      omega
  · show mConsensus ops (some (ι k) :: rest.map (Option.map ι)) = _
    unfold mConsensus
    rw [show (some (ι k) :: rest.map (Option.map ι) : List (Option α)).filterMap id
        = ι k :: (rest.map (Option.map ι)).filterMap id from rfl, filterMap_id_map]
    dsimp only
    have hiff : ((ι k :: (rest.filterMap id).map ι).length
          = (some (ι k) :: rest.map (Option.map ι) : List (Option α)).length
        ∧ ((rest.filterMap id).map ι).all
            (fun c => ops.toInt c == ops.toInt (ι k)) = true)
        ↔ ∀ c ∈ (some k :: rest : List (Option Nat)), c = some k := by
      rw [← filterMap_consensus_all k (some k :: rest)]
      rw [show List.filterMap id (some k :: rest) = k :: List.filterMap id rest from rfl]
      simp only [List.length_cons, List.length_map, List.forall_mem_cons,
        List.all_eq_true, List.mem_map, h.toInt]
      constructor
      · rintro ⟨hlen, hall⟩
        refine ⟨by omega, trivial, fun x hx => ?_⟩
        have := hall (ι x) ⟨x, hx, rfl⟩
        rw [h.toInt, beq_iff_eq] at this
        exact_mod_cast this
      · rintro ⟨hlen, -, hall⟩
        refine ⟨by omega, ?_⟩
        rintro c ⟨x, hx, rfl⟩
        rw [h.toInt, beq_iff_eq]
        exact_mod_cast hall x hx
    have hcond : nConsensusL (some k :: rest)
        = if ∀ c ∈ (some k :: rest : List (Option Nat)), c = some k then some k
          else none := rfl
    rw [hcond]
    by_cases hc : ∀ c ∈ (some k :: rest : List (Option Nat)), c = some k
    · rw [if_pos hc, if_pos (hiff.mpr hc)]
      rfl
    · rw [if_neg hc, if_neg (fun hl => hc (hiff.mp hl))]
      rfl

theorem mCands_emb {α : Type} {ops : MOps α} {ι : Nat → α}
    (h : MEmb ops ι) (s : GS Nat) (xA yA : Bool) :
    mCands ops (s.emb ι) xA yA = some ((nCands s xA yA).map (Option.map ι)) := by
  cases xA <;> cases yA <;>
    · simp only [mCands, GS.emb, h.add, mGetFloor_emb h]
      simp [nCands]

/-! ### Generic engine passes over embedded data -/

theorem engStep_emb_pull {α : Type} {ops : MOps α} {ι : Nat → α}
    (h : MEmb ops ι) (hinj : Function.Injective ι) (c : ECfg Nat)
    (hcons : nConsensus c.st c.xA c.yA = none) :
    engStep ops (.run (c.emb ι)) = some (EView.emb ι (nPull c), none) := by
  rcases c with ⟨st, xs, ys, xA, yA⟩
  unfold engStep
  dsimp only [ECfg.emb]
  rw [mCands_emb h]
  dsimp only
  rw [mConsensus_embL h hinj]
  rw [show nConsensusL (nCands st xA yA) = none from hcons]
  dsimp only [Option.map]
  cases xA <;> cases xs <;> cases yA <;> cases ys <;>
    simp [nPull, EView.emb, ECfg.emb, GS.emb, GS.ingestX, GS.ingestY, nIngestX,
      nIngestY, h.add, h.mul]

theorem engStep_emb_emit0 {α : Type} {ops : MOps α} {ι : Nat → α}
    (h : MEmb ops ι) (hinj : Function.Injective ι) (c : ECfg Nat)
    (hcons : nConsensus c.st c.xA c.yA = some 0) :
    engStep ops (.run (c.emb ι))
      = some (.run { c.emb ι with st := (nEmit0 c.st).emb ι }, some (ι 0)) := by
  have hsub0 : ∀ m, ops.sub (ι m) (ι 0) = ι m := fun m => by
    rw [h.sub m 0 (Nat.zero_le m), Nat.sub_zero]
  rcases c with ⟨st, xs, ys, xA, yA⟩
  unfold engStep
  dsimp only [ECfg.emb]
  rw [mCands_emb h]
  dsimp only
  rw [mConsensus_embL h hinj]
  rw [show nConsensusL (nCands st xA yA) = some 0 from hcons]
  dsimp only [Option.map]
  have hemit : (st.emb ι).emit ops (ι 0) = (nEmit0 st).emb ι := by
    simp [GS.emit, nEmit0, GS.emb, h.mul, Nat.mul_zero, hsub0]
  rw [hemit]

theorem engRun_one {α : Type} (ops : MOps α) (v : EView α) :
    engRun ops 1 v =
      match engStep ops v with
      | none => none
      | some (v1, out) =>
        some ((match out with | some k => [k] | none => []), v1) := by
  rw [engRun_succ]
  rcases engStep ops v with _ | ⟨v1, out⟩
  · rfl
  · dsimp only
    rw [engRun_zero]


theorem engRun_seq {α : Type} {ops : MOps α} {n m : Nat}
    {v v1 v2 : EView α} {o1 o2 : List α} (h1 : engRun ops n v = some (o1, v1))
    (h2 : engRun ops m v1 = some (o2, v2)) :
    engRun ops (n + m) v = some (o1 ++ o2, v2) := by
  rw [engRun_add]
  rw [h1]
  dsimp only
  rw [h2]

theorem engRun_pad {α : Type} {ops : MOps α} {n : Nat} {v : EView α}
    {o : List α} (hn : engRun ops n v = some (o, .halted)) (m : Nat) :
    engRun ops (n + m) v = some (o, .halted) := by
  have := engRun_seq hn (engRun_halted ops m)
  simpa using this

theorem engRun_drain_emb {α : Type} {ops : MOps α} {ι : Nat → α}
    (h : MEmb ops ι) : ∀ u v : Nat,
    engRun ops ((euc v u).length + 1) (.drain (ι v) (ι u))
      = some ((euc v u).map ι, .halted) := by
  intro u
  induction u using Nat.strong_induction_on with
  | _ u ih =>
    intro v
    rcases Nat.eq_zero_or_pos u with hu | hu
    · subst hu
      rw [euc_zero]
      rw [engRun_succ]
      simp [engStep, h.vac, engRun_zero]
    · have hu0 : u ≠ 0 := Nat.pos_iff_ne_zero.mp hu
      have hlen : (euc v u).length = (euc u (v % u)).length + 1 := by
        rw [euc_of_ne v hu0]; simp
      rw [hlen, engRun_succ]
      have hstep : engStep ops (.drain (ι v) (ι u))
          = some (.drain (ι u) (ι (v % u)), some (ι (v / u))) := by
        simp [engStep, h.vac, hu0, h.div v u hu0]
      rw [hstep]
      dsimp only
      rw [ih (v % u) (Nat.mod_lt _ hu) u]
      dsimp only
      rw [euc_of_ne v hu0]
      simp

/-! ### Shadow consensus computations -/

theorem nConsensus_e0 (s : GS Nat) (xA yA : Bool) (he : s.e = 0) :
    nConsensus s xA yA = none := by
  unfold nConsensus
  have hshape : nCands s xA yA = nCandFloor s.a s.e :: _ := rfl
  rw [hshape, he]
  rw [show nCandFloor s.a 0 = none from by unfold nCandFloor; simp]
  rfl

theorem nConsensus_false_true (s : GS Nat) :
    nConsensus s false true = nConsensus2 s.a s.b s.e s.f := rfl

theorem nConsensusL_two_ne {o : Option Nat} {k : Nat} (hne : o ≠ some k) :
    nConsensusL [some k, o] = none := by
  show (if ∀ c ∈ [some k, o], c = some k then some k else none) = none
  rw [if_neg]
  intro hall
  exact hne (hall o (by simp))

theorem nConsensus2_ne {a b e f : Nat}
    (hne : nCandFloor (a + b) (e + f) ≠ nCandFloor a e) :
    nConsensus2 a b e f = none := by
  unfold nConsensus2
  rcases hc : nCandFloor a e with _ | k
  · rfl
  · rw [hc] at hne
    exact nConsensusL_two_ne hne

theorem nConsensus2_e0 (a b f : Nat) : nConsensus2 a b 0 f = none := by
  unfold nConsensus2
  rw [show nCandFloor a 0 = none from by unfold nCandFloor; simp]
  rfl

theorem nConsensus2_fire {a b e f k : Nat} (he : e ≠ 0)
    (h1 : a / e = k) (h2 : (a + b) / (e + f) = k) :
    nConsensus2 a b e f = some k := by
  unfold nConsensus2 nCandFloor
  rw [if_neg he, if_neg (by omega), h1, h2]
  show (if ∀ c ∈ [some k, some k], c = some k then some k else none) = some k
  rw [if_pos]
  intro c hc
  simp only [List.mem_cons, List.mem_singleton] at hc
  rcases hc with hc | hc | hc <;> simp_all

theorem nConsensus_ne_y (s : GS Nat) (xA : Bool)
    (hne : nCandFloor (s.a + s.b) (s.e + s.f) ≠ nCandFloor s.a s.e) :
    nConsensus s xA true = none := by
  unfold nConsensus
  rcases hc : nCandFloor s.a s.e with _ | k
  · have hshape : nCands s xA true = nCandFloor s.a s.e :: _ := rfl
    rw [hshape, hc]
    rfl
  · rw [hc] at hne
    cases xA
    · rw [show nCands s false true
          = [nCandFloor s.a s.e, nCandFloor (s.a + s.b) (s.e + s.f)] from rfl, hc]
      exact nConsensusL_two_ne hne
    · rw [show nCands s true true
          = [nCandFloor s.a s.e,
             nCandFloor (s.a + s.b + s.c + s.d) (s.e + s.f + s.g + s.h),
             nCandFloor (s.a + s.b) (s.e + s.f),
             nCandFloor (s.a + s.c) (s.e + s.g)] from rfl, hc]
      show (if ∀ c ∈ _, c = some k then some k else none) = none
      rw [if_neg]
      intro hall
      exact hne (hall (nCandFloor (s.a + s.b) (s.e + s.f)) (by simp))

theorem nConsensus_ne_xy (s : GS Nat)
    (hne : nCandFloor (s.a + s.b + s.c + s.d) (s.e + s.f + s.g + s.h)
      ≠ nCandFloor s.a s.e) :
    nConsensus s true true = none := by
  unfold nConsensus
  rcases hc : nCandFloor s.a s.e with _ | k
  · have hshape : nCands s true true = nCandFloor s.a s.e :: _ := rfl
    rw [hshape, hc]
    rfl
  · rw [hc] at hne
    rw [show nCands s true true
        = [nCandFloor s.a s.e,
           nCandFloor (s.a + s.b + s.c + s.d) (s.e + s.f + s.g + s.h),
           nCandFloor (s.a + s.b) (s.e + s.f),
           nCandFloor (s.a + s.c) (s.e + s.g)] from rfl, hc]
    show (if ∀ c ∈ _, c = some k then some k else none) = none
    rw [if_neg]
    intro hall
    exact hne
      (hall (nCandFloor (s.a + s.b + s.c + s.d) (s.e + s.f + s.g + s.h)) (by simp))

theorem nConsensus_fire4 {s : GS Nat} {k : Nat} (he : s.e ≠ 0)
    (hd2 : s.e + s.f + s.g + s.h ≠ 0) (hd3 : s.e + s.f ≠ 0)
    (hd4 : s.e + s.g ≠ 0) (h1 : s.a / s.e = k)
    (h2 : (s.a + s.b + s.c + s.d) / (s.e + s.f + s.g + s.h) = k)
    (h3 : (s.a + s.b) / (s.e + s.f) = k) (h4 : (s.a + s.c) / (s.e + s.g) = k) :
    nConsensus s true true = some k := by
  unfold nConsensus
  rw [show nCands s true true
      = [nCandFloor s.a s.e,
         nCandFloor (s.a + s.b + s.c + s.d) (s.e + s.f + s.g + s.h),
         nCandFloor (s.a + s.b) (s.e + s.f),
         nCandFloor (s.a + s.c) (s.e + s.g)] from rfl]
  unfold nCandFloor
  rw [if_neg he, if_neg hd2, if_neg hd3, if_neg hd4, h1, h2, h3, h4]
  show (if ∀ c ∈ _, c = some k then some k else none) = some k
  rw [if_pos]
  intro c hc
  simp only [List.mem_cons, List.mem_singleton] at hc
  rcases hc with hc | hc | hc | hc | hc <;> simp_all

/-! ### The blind ingestion phase -/

theorem engRun_blind_emb {α : Type} {ops : MOps α} {ι : Nat → α}
    (h : MEmb ops ι) (hinj : Function.Injective ι) :
    ∀ (l : List Nat) (a b c d f hh : Nat) (ys : List Nat) (yA : Bool),
      engRun ops l.length
          (.run ((⟨⟨a, b, c, d, 0, f, 0, hh⟩, l, ys, true, yA⟩ : ECfg Nat).emb ι))
        = some ([], .run ((⟨⟨(lfold l (a, c)).1, (lfold l (b, d)).1,
            (lfold l (a, c)).2, (lfold l (b, d)).2, 0, (lfold l (f, hh)).1, 0,
            (lfold l (f, hh)).2⟩, [], ys, true, yA⟩ : ECfg Nat).emb ι)) := by
  intro l
  induction l with
  | nil =>
    intro a b c d f hh ys yA
    rw [List.length_nil, engRun_zero]
    rfl
  | cons t l ih =>
    intro a b c d f hh ys yA
    have hstep := engStep_emb_pull h hinj ⟨⟨a, b, c, d, 0, f, 0, hh⟩, t :: l, ys, true, yA⟩
      (nConsensus_e0 _ _ _ rfl)
    rw [show (t :: l).length = l.length + 1 from rfl, engRun_succ, hstep]
    dsimp only [nPull, EView.emb]
    have hst : nIngestX ⟨a, b, c, d, 0, f, 0, hh⟩ t
        = ⟨a * t + c, b * t + d, a, b, 0, f * t + hh, 0, f⟩ := by
      simp [nIngestX]
    rw [hst, ih (a * t + c) (b * t + d) a b (f * t + hh) f ys yA]
    rfl

/-! ### Law runs: `x + 0`, `x * 0` (backend-generic) -/

theorem div_gcd_ne_zero_right {p q : Nat} (hq : q ≠ 0) :
    q / Nat.gcd p q ≠ 0 := by
  intro h0
  have hdvd : Nat.gcd p q ∣ q := Nat.gcd_dvd_right p q
  have hcancel := Nat.div_mul_cancel hdvd
  rw [h0] at hcancel
  simp at hcancel
  exact hq hcancel.symm

theorem euc_reduce {p q : Nat} (hq : q ≠ 0) :
    euc (p / Nat.gcd p q) (q / Nat.gcd p q) = euc p q := by
  have hg0 : Nat.gcd p q ≠ 0 := by
    intro h0
    exact hq (Nat.eq_zero_of_gcd_eq_zero_right h0)
  have hp : Nat.gcd p q * (p / Nat.gcd p q) = p :=
    Nat.mul_div_cancel' (Nat.gcd_dvd_left p q)
  have hqq : Nat.gcd p q * (q / Nat.gcd p q) = q :=
    Nat.mul_div_cancel' (Nat.gcd_dvd_right p q)
  have hs := euc_scale (Nat.gcd p q) hg0 (q / Nat.gcd p q) (p / Nat.gcd p q)
  rw [hp, hqq] at hs
  exact hs.symm

theorem lawA_emb {α : Type} {ops : MOps α} {ι : Nat → α}
    (h : MEmb ops ι) (hinj : Function.Injective ι) (p q : Nat) (hq : q ≠ 0) :
    engRun ops (2 * (euc p q).length + 4)
        (engInit (addSeedN.emb ι) ((euc p q).map ι) [ι 0])
      = some ((euc p q).map ι, .halted) := by
  obtain ⟨hm11, hm21⟩ := matOf_euc q hq p
  have hQ0 : (matOf (euc p q)).2.2.1 ≠ 0 := by
    rw [hm21]; exact div_gcd_ne_zero_right hq
  have hac : lfold (euc p q) (0, 1) = ((matOf (euc p q)).2.2.1, (matOf (euc p q)).2.2.2) := by
    rw [lfold_eq]; simp
  have hbd : lfold (euc p q) (1, 0) = ((matOf (euc p q)).1, (matOf (euc p q)).2.1) := by
    rw [lfold_eq]; simp
  have hblind := engRun_blind_emb h hinj (euc p q) 0 1 1 0 0 1 [0] true
  rw [hac, hbd] at hblind
  set m11 := (matOf (euc p q)).1
  set m12 := (matOf (euc p q)).2.1
  set m21 := (matOf (euc p q)).2.2.1
  set m22 := (matOf (euc p q)).2.2.2
  -- the pass that discovers x exhausted and ingests the single y term 0
  have hs1 := engStep_emb_pull h hinj
    ⟨⟨m21, m11, m22, m12, 0, m21, 0, m22⟩, [], [0], true, true⟩
    (nConsensus_e0 _ _ _ rfl)
  have hy : nIngestY ⟨m21, m11, m22, m12, 0, m21, 0, m22⟩ 0
      = ⟨m11, m21, m12, m22, m21, 0, m22, 0⟩ := by
    simp [nIngestY]
  have hp1 : engRun ops 1
      (.run ((⟨⟨m21, m11, m22, m12, 0, m21, 0, m22⟩, [], [0], true, true⟩ : ECfg Nat).emb ι))
      = some ([], .run ((⟨⟨m11, m21, m12, m22, m21, 0, m22, 0⟩, [], [], false, true⟩ : ECfg Nat).emb ι)) := by
    rw [engRun_one, hs1]
    dsimp only [nPull, EView.emb]
    rw [hy]
  -- the failed-consensus pass that enters the drain
  have hkill : nConsensus ⟨m11, m21, m12, m22, m21, 0, m22, 0⟩ false true = none := by
    apply nConsensus_ne_y
    show nCandFloor (m11 + m21) (m21 + 0) ≠ nCandFloor m11 m21
    unfold nCandFloor
    rw [if_neg (by omega), if_neg hQ0]
    rw [Nat.add_zero, Nat.add_div_right _ (Nat.pos_of_ne_zero hQ0)]
    intro hcontra
    have := Option.some.inj hcontra
    omega
  have hs2 := engStep_emb_pull h hinj
    ⟨⟨m11, m21, m12, m22, m21, 0, m22, 0⟩, [], [], false, true⟩ hkill
  have hp2 : engRun ops 1
      (.run ((⟨⟨m11, m21, m12, m22, m21, 0, m22, 0⟩, [], [], false, true⟩ : ECfg Nat).emb ι))
      = some ([], .drain (ι m11) (ι m21)) := by
    rw [engRun_one, hs2]
    rfl
  -- drain of a / e
  have hdrain := engRun_drain_emb h m21 m11
  have heq : euc m11 m21 = euc p q := by
    rw [hm11, hm21]; exact euc_reduce hq
  rw [heq] at hdrain
  -- compose
  have hfuel : 2 * (euc p q).length + 4
      = ((euc p q).length + (1 + (1 + ((euc p q).length + 1)))) + 1 := by omega
  rw [hfuel]
  apply engRun_pad
  have hrun := engRun_seq hblind (engRun_seq hp1 (engRun_seq hp2 hdrain))
  simpa using hrun

theorem lawC_emb {α : Type} {ops : MOps α} {ι : Nat → α}
    (h : MEmb ops ι) (hinj : Function.Injective ι) (p q : Nat) (hq : q ≠ 0) :
    engRun ops (2 * (euc p q).length + 4)
        (engInit (mulSeedN.emb ι) ((euc p q).map ι) [ι 0])
      = some ([ι 0], .halted) := by
  obtain ⟨hm11, hm21⟩ := matOf_euc q hq p
  have hQ0 : (matOf (euc p q)).2.2.1 ≠ 0 := by
    rw [hm21]; exact div_gcd_ne_zero_right hq
  have hac : lfold (euc p q) (1, 0) = ((matOf (euc p q)).1, (matOf (euc p q)).2.1) := by
    rw [lfold_eq]; simp
  have hfh : lfold (euc p q) (0, 1) = ((matOf (euc p q)).2.2.1, (matOf (euc p q)).2.2.2) := by
    rw [lfold_eq]; simp
  have hblind := engRun_blind_emb h hinj (euc p q) 1 0 0 0 0 1 [0] true
  rw [hac, hfh, lfold_zero] at hblind
  set m11 := (matOf (euc p q)).1
  set m12 := (matOf (euc p q)).2.1
  set m21 := (matOf (euc p q)).2.2.1
  set m22 := (matOf (euc p q)).2.2.2
  -- x exhausted: ingest the single y term 0 in the same pass
  have hs1 := engStep_emb_pull h hinj
    ⟨⟨m11, 0, m12, 0, 0, m21, 0, m22⟩, [], [0], true, true⟩
    (nConsensus_e0 _ _ _ rfl)
  have hy : nIngestY ⟨m11, 0, m12, 0, 0, m21, 0, m22⟩ 0
      = ⟨0, m11, 0, m12, m21, 0, m22, 0⟩ := by
    simp [nIngestY]
  have hp1 : engRun ops 1
      (.run ((⟨⟨m11, 0, m12, 0, 0, m21, 0, m22⟩, [], [0], true, true⟩ : ECfg Nat).emb ι))
      = some ([], .run ((⟨⟨0, m11, 0, m12, m21, 0, m22, 0⟩, [], [], false, true⟩ : ECfg Nat).emb ι)) := by
    rw [engRun_one, hs1]
    dsimp only [nPull, EView.emb]
    rw [hy]
  rcases Nat.lt_or_ge p q with hpq | hpq
  · -- p < q : consensus 0 fires, then the vacuum drain ends the run
    have hPQ : m11 < m21 := by
      rw [hm11, hm21]
      have hdvd1 := Nat.div_mul_cancel (Nat.gcd_dvd_left p q)
      have hdvd2 := Nat.div_mul_cancel (Nat.gcd_dvd_right p q)
      by_contra hcon
      push_neg at hcon
      have := Nat.mul_le_mul_right (Nat.gcd p q) hcon
      rw [hdvd1, hdvd2] at this
      omega
    have hfire : nConsensus ⟨0, m11, 0, m12, m21, 0, m22, 0⟩ false true = some 0 := by
      rw [nConsensus_false_true]
      apply nConsensus2_fire hQ0
      · exact Nat.zero_div _
      · rw [Nat.zero_add, Nat.add_zero]
        exact Nat.div_eq_of_lt hPQ
    have hs2 := engStep_emb_emit0 h hinj
      ⟨⟨0, m11, 0, m12, m21, 0, m22, 0⟩, [], [], false, true⟩ hfire
    have hp2 : engRun ops 1
        (.run ((⟨⟨0, m11, 0, m12, m21, 0, m22, 0⟩, [], [], false, true⟩ : ECfg Nat).emb ι))
        = some ([ι 0],
            .run ((⟨⟨m21, 0, m22, 0, 0, m11, 0, m12⟩, [], [], false, true⟩ : ECfg Nat).emb ι)) := by
      rw [engRun_one, hs2]
      rfl
    have hs3 := engStep_emb_pull h hinj
      ⟨⟨m21, 0, m22, 0, 0, m11, 0, m12⟩, [], [], false, true⟩
      (nConsensus_e0 _ _ _ rfl)
    have hp3 : engRun ops 1
        (.run ((⟨⟨m21, 0, m22, 0, 0, m11, 0, m12⟩, [], [], false, true⟩ : ECfg Nat).emb ι))
        = some ([], .drain (ι m21) (ι 0)) := by
      rw [engRun_one, hs3]
      rfl
    have hdrain := engRun_drain_emb h 0 m21
    rw [euc_zero] at hdrain
    have hfuel : 2 * (euc p q).length + 4
        = ((euc p q).length + (1 + (1 + (1 + 1)))) + (2 * (euc p q).length - (euc p q).length) := by
      omega
    rw [hfuel]
    apply engRun_pad
    have hrun := engRun_seq hblind
      (engRun_seq hp1 (engRun_seq hp2 (engRun_seq hp3 hdrain)))
    simpa using hrun
  · -- q ≤ p : no consensus, drain of 0 / e yields the single 0
    have hPQ : m21 ≤ m11 := by
      rw [hm11, hm21]
      exact Nat.div_le_div_right hpq
    have hkill : nConsensus ⟨0, m11, 0, m12, m21, 0, m22, 0⟩ false true = none := by
      apply nConsensus_ne_y
      show nCandFloor (0 + m11) (m21 + 0) ≠ nCandFloor 0 m21
      unfold nCandFloor
      rw [if_neg (by omega), if_neg hQ0]
      rw [Nat.zero_add, Nat.add_zero, Nat.zero_div]
      have hone : 1 ≤ m11 / m21 :=
        (Nat.one_le_div_iff (Nat.pos_of_ne_zero hQ0)).mpr hPQ
      intro hcontra
      have := Option.some.inj hcontra
      omega
    have hs2 := engStep_emb_pull h hinj
      ⟨⟨0, m11, 0, m12, m21, 0, m22, 0⟩, [], [], false, true⟩ hkill
    have hp2 : engRun ops 1
        (.run ((⟨⟨0, m11, 0, m12, m21, 0, m22, 0⟩, [], [], false, true⟩ : ECfg Nat).emb ι))
        = some ([], .drain (ι 0) (ι m21)) := by
      rw [engRun_one, hs2]
      rfl
    have hdrain := engRun_drain_emb h m21 0
    rw [euc_zero_num hQ0] at hdrain
    have hfuel : 2 * (euc p q).length + 4
        = ((euc p q).length + (1 + (1 + 2))) + (2 * (euc p q).length - (euc p q).length) := by
      omega
    rw [hfuel]
    apply engRun_pad
    have hrun := engRun_seq hblind (engRun_seq hp1 (engRun_seq hp2 hdrain))
    simpa using hrun

/-! ### Law run: `x * 1` (backend-generic) -/

theorem euc_reduce_swap {p q : Nat} (hq : q ≠ 0) :
    euc (q / Nat.gcd p q) (p / Nat.gcd p q) = euc q p := by
  have hg0 : Nat.gcd p q ≠ 0 := by
    intro h0
    exact hq (Nat.eq_zero_of_gcd_eq_zero_right h0)
  have hp : Nat.gcd p q * (p / Nat.gcd p q) = p :=
    Nat.mul_div_cancel' (Nat.gcd_dvd_left p q)
  have hqq : Nat.gcd p q * (q / Nat.gcd p q) = q :=
    Nat.mul_div_cancel' (Nat.gcd_dvd_right p q)
  have hs := euc_scale (Nat.gcd p q) hg0 (p / Nat.gcd p q) (q / Nat.gcd p q)
  rw [hp, hqq] at hs
  exact hs.symm

theorem lawB_emb {α : Type} {ops : MOps α} {ι : Nat → α}
    (h : MEmb ops ι) (hinj : Function.Injective ι) (p q : Nat) (hq : q ≠ 0) :
    engRun ops (2 * (euc p q).length + 4)
        (engInit (mulSeedN.emb ι) ((euc p q).map ι) [ι 1])
      = some ((euc p q).map ι, .halted) := by
  obtain ⟨hm11, hm21⟩ := matOf_euc q hq p
  have hQ0 : (matOf (euc p q)).2.2.1 ≠ 0 := by
    rw [hm21]; exact div_gcd_ne_zero_right hq
  have hac : lfold (euc p q) (1, 0) = ((matOf (euc p q)).1, (matOf (euc p q)).2.1) := by
    rw [lfold_eq]; simp
  have hfh : lfold (euc p q) (0, 1) = ((matOf (euc p q)).2.2.1, (matOf (euc p q)).2.2.2) := by
    rw [lfold_eq]; simp
  have hblind := engRun_blind_emb h hinj (euc p q) 1 0 0 0 0 1 [1] true
  rw [hac, hfh, lfold_zero] at hblind
  set m11 := (matOf (euc p q)).1 with hm11def
  set m12 := (matOf (euc p q)).2.1
  set m21 := (matOf (euc p q)).2.2.1 with hm21def
  set m22 := (matOf (euc p q)).2.2.2
  have hs1 := engStep_emb_pull h hinj
    ⟨⟨m11, 0, m12, 0, 0, m21, 0, m22⟩, [], [1], true, true⟩
    (nConsensus_e0 _ _ _ rfl)
  have hy : nIngestY ⟨m11, 0, m12, 0, 0, m21, 0, m22⟩ 1
      = ⟨m11, m11, m12, m12, m21, 0, m22, 0⟩ := by
    simp [nIngestY]
  have hp1 : engRun ops 1
      (.run ((⟨⟨m11, 0, m12, 0, 0, m21, 0, m22⟩, [], [1], true, true⟩ : ECfg Nat).emb ι))
      = some ([], .run ((⟨⟨m11, m11, m12, m12, m21, 0, m22, 0⟩, [], [], false, true⟩ : ECfg Nat).emb ι)) := by
    rw [engRun_one, hs1]
    dsimp only [nPull, EView.emb]
    rw [hy]
  rcases Nat.lt_or_ge p q with hpq | hpq
  · -- p < q
    have hPQ : m11 < m21 := by
      rw [hm11, hm21]
      have hdvd1 := Nat.div_mul_cancel (Nat.gcd_dvd_left p q)
      have hdvd2 := Nat.div_mul_cancel (Nat.gcd_dvd_right p q)
      by_contra hcon
      push_neg at hcon
      have := Nat.mul_le_mul_right (Nat.gcd p q) hcon
      rw [hdvd1, hdvd2] at this
      omega
    have hsplit : euc p q = 0 :: euc q p := by
      rw [euc_of_ne p hq, Nat.div_eq_of_lt hpq, Nat.mod_eq_of_lt hpq]
    rcases Nat.lt_or_ge (m11 + m11) m21 with h2m | h2m
    · -- 2·m11 < m21 : consensus 0 fires, then the state re-kills and drains
      rw [hsplit]
      rw [hsplit] at hblind
      have hfire : nConsensus ⟨m11, m11, m12, m12, m21, 0, m22, 0⟩ false true = some 0 := by
        rw [nConsensus_false_true]
        apply nConsensus2_fire hQ0
        · exact Nat.div_eq_of_lt hPQ
        · rw [Nat.add_zero]
          exact Nat.div_eq_of_lt h2m
      have hs2 := engStep_emb_emit0 h hinj
        ⟨⟨m11, m11, m12, m12, m21, 0, m22, 0⟩, [], [], false, true⟩ hfire
      have hp2 : engRun ops 1
          (.run ((⟨⟨m11, m11, m12, m12, m21, 0, m22, 0⟩, [], [], false, true⟩ : ECfg Nat).emb ι))
          = some ([ι 0],
              .run ((⟨⟨m21, 0, m22, 0, m11, m11, m12, m12⟩, [], [], false, true⟩ : ECfg Nat).emb ι)) := by
        rw [engRun_one, hs2]
        rfl
      have hkill2 : nConsensus ⟨m21, 0, m22, 0, m11, m11, m12, m12⟩ false true = none := by
        rcases Nat.eq_zero_or_pos m11 with hP0 | hP0
        · exact nConsensus_e0 _ _ _ hP0
        · apply nConsensus_ne_y
          show nCandFloor (m21 + 0) (m11 + m11) ≠ nCandFloor m21 m11
          unfold nCandFloor
          rw [if_neg (by omega), if_neg (by omega), Nat.add_zero]
          set k := m21 / (m11 + m11) with hk
          have hk1 : 1 ≤ k :=
            (Nat.one_le_div_iff (by omega)).mpr (by omega)
          have hge : k * (m11 + m11) ≤ m21 := Nat.div_mul_le_self m21 _ |>.trans_eq' (by rw [hk, Nat.mul_comm])
          have hkk : k + 1 ≤ m21 / m11 := by
            rw [Nat.le_div_iff_mul_le hP0]
            nlinarith
          intro hcontra
          have := Option.some.inj hcontra
          omega
      have hs3 := engStep_emb_pull h hinj
        ⟨⟨m21, 0, m22, 0, m11, m11, m12, m12⟩, [], [], false, true⟩ hkill2
      have hp3 : engRun ops 1
          (.run ((⟨⟨m21, 0, m22, 0, m11, m11, m12, m12⟩, [], [], false, true⟩ : ECfg Nat).emb ι))
          = some ([], .drain (ι m21) (ι m11)) := by
        rw [engRun_one, hs3]
        rfl
      have hdrain := engRun_drain_emb h m11 m21
      have heq : euc m21 m11 = euc q p := by
        rw [hm11, hm21]
        exact euc_reduce_swap hq
      rw [heq] at hdrain
      have hfuel : 2 * (0 :: euc q p).length + 4
          = ((0 :: euc q p).length + (1 + (1 + (1 + ((euc q p).length + 1))))) + 1 := by
        simp only [List.length_cons]
        omega
      rw [hfuel]
      apply engRun_pad
      have hrun := engRun_seq hblind
        (engRun_seq hp1 (engRun_seq hp2 (engRun_seq hp3 hdrain)))
      simpa using hrun
    · -- m21 ≤ 2·m11 : the probe floors differ, drain directly
      have hkill : nConsensus ⟨m11, m11, m12, m12, m21, 0, m22, 0⟩ false true = none := by
        apply nConsensus_ne_y
        show nCandFloor (m11 + m11) (m21 + 0) ≠ nCandFloor m11 m21
        unfold nCandFloor
        rw [if_neg (by omega), if_neg hQ0, Nat.add_zero]
        have hlow : 1 ≤ (m11 + m11) / m21 :=
          (Nat.one_le_div_iff (Nat.pos_of_ne_zero hQ0)).mpr h2m
        have h0 : m11 / m21 = 0 := Nat.div_eq_of_lt hPQ
        intro hcontra
        have := Option.some.inj hcontra
        omega
      have hs2 := engStep_emb_pull h hinj
        ⟨⟨m11, m11, m12, m12, m21, 0, m22, 0⟩, [], [], false, true⟩ hkill
      have hp2 : engRun ops 1
          (.run ((⟨⟨m11, m11, m12, m12, m21, 0, m22, 0⟩, [], [], false, true⟩ : ECfg Nat).emb ι))
          = some ([], .drain (ι m11) (ι m21)) := by
        rw [engRun_one, hs2]
        rfl
      have hdrain := engRun_drain_emb h m21 m11
      have heq : euc m11 m21 = euc p q := by
        rw [hm11, hm21]
        exact euc_reduce hq
      rw [heq] at hdrain
      have hfuel : 2 * (euc p q).length + 4
          = ((euc p q).length + (1 + (1 + ((euc p q).length + 1)))) + 1 := by omega
      rw [hfuel]
      apply engRun_pad
      have hrun := engRun_seq hblind (engRun_seq hp1 (engRun_seq hp2 hdrain))
      simpa using hrun
  · -- q ≤ p : the probe floors differ, drain directly
    have hPQ : m21 ≤ m11 := by
      rw [hm11, hm21]
      exact Nat.div_le_div_right hpq
    have hkill : nConsensus ⟨m11, m11, m12, m12, m21, 0, m22, 0⟩ false true = none := by
      apply nConsensus_ne_y
      show nCandFloor (m11 + m11) (m21 + 0) ≠ nCandFloor m11 m21
      unfold nCandFloor
      rw [if_neg (by omega), if_neg hQ0, Nat.add_zero]
      have hmono : (m11 + m21) / m21 ≤ (m11 + m11) / m21 :=
        Nat.div_le_div_right (by omega)
      rw [Nat.add_div_right _ (Nat.pos_of_ne_zero hQ0)] at hmono
      intro hcontra
      have := Option.some.inj hcontra
      omega
    have hs2 := engStep_emb_pull h hinj
      ⟨⟨m11, m11, m12, m12, m21, 0, m22, 0⟩, [], [], false, true⟩ hkill
    have hp2 : engRun ops 1
        (.run ((⟨⟨m11, m11, m12, m12, m21, 0, m22, 0⟩, [], [], false, true⟩ : ECfg Nat).emb ι))
        = some ([], .drain (ι m11) (ι m21)) := by
      rw [engRun_one, hs2]
      rfl
    have hdrain := engRun_drain_emb h m21 m11
    have heq : euc m11 m21 = euc p q := by
      rw [hm11, hm21]
      exact euc_reduce hq
    rw [heq] at hdrain
    have hfuel : 2 * (euc p q).length + 4
        = ((euc p q).length + (1 + (1 + ((euc p q).length + 1)))) + 1 := by omega
    rw [hfuel]
    apply engRun_pad
    have hrun := engRun_seq hblind (engRun_seq hp1 (engRun_seq hp2 hdrain))
    simpa using hrun

/-! ### Passes over partially-embedded states

Once `x` is dead only the candidates `a/e` and `(a+b)/(e+f)` are probed
and the drain uses `(a, e)`, so the columns `(c, d, g, h)` never
influence the run again; the lemmas below therefore fix only the row
components to embedded values. -/

theorem mCandsJ {α : Type} {ops : MOps α} {ι : Nat → α} (h : MEmb ops ι)
    (s : GS α) (a b e f : Nat) (hsa : s.a = ι a) (hsb : s.b = ι b)
    (hse : s.e = ι e) (hsf : s.f = ι f) :
    mCands ops s false true
      = some ([nCandFloor a e, nCandFloor (a + b) (e + f)].map (Option.map ι)) := by
  unfold mCands
  rw [hsa, hsb, hse, hsf]
  simp [h.add, mGetFloor_emb h]

theorem engStepJ_pull {α : Type} {ops : MOps α} {ι : Nat → α}
    (h : MEmb ops ι) (hinj : Function.Injective ι) (s : GS α)
    (a b e f : Nat) (ysl : List α) (hsa : s.a = ι a) (hsb : s.b = ι b)
    (hse : s.e = ι e) (hsf : s.f = ι f)
    (hcons : nConsensus2 a b e f = none) :
    engStep ops (.run ⟨s, [], ysl, false, true⟩)
      = some (match ysl with
          | [] => (.drain s.a s.e, none)
          | t :: rest => (.run ⟨s.ingestY ops t, [], rest, false, true⟩, none)) := by
  unfold engStep
  dsimp only
  rw [mCandsJ h s a b e f hsa hsb hse hsf]
  dsimp only
  rw [mConsensus_embL h hinj]
  rw [show nConsensusL [nCandFloor a e, nCandFloor (a + b) (e + f)] = none from hcons]
  dsimp only [Option.map]
  rcases ysl with _ | ⟨t, rest⟩ <;> rfl

theorem engStepJ_emit {α : Type} {ops : MOps α} {ι : Nat → α}
    (h : MEmb ops ι) (hinj : Function.Injective ι) (s : GS α)
    (a b e f k : Nat) (xsl ysl : List α) (hsa : s.a = ι a) (hsb : s.b = ι b)
    (hse : s.e = ι e) (hsf : s.f = ι f)
    (hcons : nConsensus2 a b e f = some k)
    (hek : e * k ≤ a) (hfk : f * k ≤ b) :
    engStep ops (.run ⟨s, xsl, ysl, false, true⟩)
      = some (.run ⟨⟨s.e, s.f, s.g, s.h, ι (a - e * k), ι (b - f * k),
          ops.sub s.c (ops.mul s.g (ι k)), ops.sub s.d (ops.mul s.h (ι k))⟩,
          xsl, ysl, false, true⟩, some (ι k)) := by
  unfold engStep
  dsimp only
  rw [mCandsJ h s a b e f hsa hsb hse hsf]
  dsimp only
  rw [mConsensus_embL h hinj]
  rw [show nConsensusL [nCandFloor a e, nCandFloor (a + b) (e + f)] = some k from hcons]
  dsimp only [Option.map]
  have hemit : s.emit ops (ι k)
      = ⟨s.e, s.f, s.g, s.h, ι (a - e * k), ι (b - f * k),
          ops.sub s.c (ops.mul s.g (ι k)), ops.sub s.d (ops.mul s.h (ι k))⟩ := by
    unfold GS.emit
    rw [hsa, hsb, hse, hsf, h.mul, h.mul, h.sub _ _ hek, h.sub _ _ hfk]
  rw [hemit]

theorem engStep_drain_vac {α : Type} {ops : MOps α} {ι : Nat → α}
    (h : MEmb ops ι) (x : α) :
    engStep ops (.drain x (ι 0)) = some (.halted, none) := by
  simp [engStep, h.vac]

theorem engStep_drain_pos {α : Type} {ops : MOps α} {ι : Nat → α}
    (h : MEmb ops ι) (v u : Nat) (hu : u ≠ 0) :
    engStep ops (.drain (ι v) (ι u))
      = some (.drain (ι u) (ι (v % u)), some (ι (v / u))) := by
  simp [engStep, h.vac, hu, h.div v u hu]

/-! ### The `x / x` tail phase

After `x` is exhausted the two probed rows `(a, b)` and `(e, f)` differ
by the continuant-determinant identity: their difference is governed by
the still-unconsumed Euclid pair, with a sign that alternates at each
ingestion.  No digit is forced until the stream runs out, at which
point `a = e` and the run ends in `[1]` through either the emit or the
drain route. -/

theorem lawE_yphase {α : Type} {ops : MOps α} {ι : Nat → α}
    (h : MEmb ops ι) (hinj : Function.Injective ι) :
    ∀ u : Nat, ∀ (v a b e f : Nat) (X Y Z W : α),
      1 ≤ e →
      ((e = a + u ∧ b = f + v ∧ u ≤ v) ∨ (a = e + u ∧ f = b + v ∧ u < v)) →
      engRun ops ((euc v u).length + 3)
          (.run ⟨⟨ι a, ι b, X, Y, ι e, ι f, Z, W⟩, [], (euc v u).map ι, false, true⟩)
        = some ([ι 1], .halted) := by
  intro u
  induction u using Nat.strong_induction_on with
  | _ u ih =>
    intro v a b e f X Y Z W he hinv
    rcases Nat.eq_zero_or_pos u with hu | hu
    · subst hu
      have hae : a = e := by omega
      subst hae
      rw [euc_zero]
      simp only [List.map_nil, List.length_nil]
      have ha1 : a / a = 1 := Nat.div_self (by omega)
      by_cases hk2 : (a + b) / (a + f) = 1
      · -- consensus on 1 : emit, then the vacuum denominator halts the run
        have hcons : nConsensus2 a b a f = some 1 :=
          nConsensus2_fire (by omega) ha1 hk2
        have hfb : f ≤ b := by
          rcases hinv with ⟨h1, h2, h3⟩ | ⟨h1, h2, h3⟩
          · omega
          · exfalso
            have hlt : a + b < a + f := by omega
            have := Nat.div_eq_of_lt hlt
            omega
        have hstep1 := engStepJ_emit h hinj ⟨ι a, ι b, X, Y, ι a, ι f, Z, W⟩
          a b a f 1 [] [] rfl rfl rfl rfl hcons (by omega) (by omega)
        have hp1 : engRun ops 1
            (.run ⟨⟨ι a, ι b, X, Y, ι a, ι f, Z, W⟩, [], [], false, true⟩)
            = some ([ι 1], .run ⟨⟨ι a, ι f, Z, W, ι 0, ι (b - f),
                ops.sub X (ops.mul Z (ι 1)), ops.sub Y (ops.mul W (ι 1))⟩,
                [], [], false, true⟩) := by
          rw [engRun_one, hstep1]
          have h0 : a - a * 1 = 0 := by omega
          have hb1 : b - f * 1 = b - f := by omega
          rw [h0, hb1]
        have hstep2 := engStepJ_pull h hinj ⟨ι a, ι f, Z, W, ι 0, ι (b - f),
            ops.sub X (ops.mul Z (ι 1)), ops.sub Y (ops.mul W (ι 1))⟩
          a f 0 (b - f) [] rfl rfl rfl rfl (nConsensus2_e0 _ _ _)
        have hp2 : engRun ops 1
            (.run ⟨⟨ι a, ι f, Z, W, ι 0, ι (b - f),
                ops.sub X (ops.mul Z (ι 1)), ops.sub Y (ops.mul W (ι 1))⟩,
                [], [], false, true⟩)
            = some ([], .drain (ι a) (ι 0)) := by
          rw [engRun_one, hstep2]
        have hp3 : engRun ops 1 (.drain (ι a) (ι 0)) = some ([], .halted) := by
          rw [engRun_one, engStep_drain_vac h]
        have hrun := engRun_seq hp1 (engRun_seq hp2 hp3)
        simpa using hrun
      · -- probes disagree : the drain on (a, a) yields the 1
        have hcons : nConsensus2 a b a f = none := by
          apply nConsensus2_ne
          unfold nCandFloor
          rw [if_neg (by omega), if_neg (by omega), ha1]
          intro hcontra
          exact hk2 (Option.some.inj hcontra)
        have hstep1 := engStepJ_pull h hinj ⟨ι a, ι b, X, Y, ι a, ι f, Z, W⟩
          a b a f [] rfl rfl rfl rfl hcons
        have hp1 : engRun ops 1
            (.run ⟨⟨ι a, ι b, X, Y, ι a, ι f, Z, W⟩, [], [], false, true⟩)
            = some ([], .drain (ι a) (ι a)) := by
          rw [engRun_one, hstep1]
        have hp2 : engRun ops 1 (.drain (ι a) (ι a))
            = some ([ι 1], .drain (ι a) (ι 0)) := by
          rw [engRun_one, engStep_drain_pos h a a (by omega)]
          rw [Nat.mod_self, Nat.div_self (by omega)]
        have hp3 : engRun ops 1 (.drain (ι a) (ι 0)) = some ([], .halted) := by
          rw [engRun_one, engStep_drain_vac h]
        have hrun := engRun_seq hp1 (engRun_seq hp2 hp3)
        simpa using hrun
    · -- a term remains : the probes disagree and the head is ingested
      have hu0 : u ≠ 0 := by omega
      have huv : u ≤ v := by omega
      have ht1 : 1 ≤ v / u := (Nat.one_le_div_iff hu).mpr huv
      rw [euc_of_ne v hu0, List.map_cons, List.length_cons]
      have hcons : nConsensus2 a b e f = none := by
        rcases hinv with ⟨h1, h2, h3⟩ | ⟨h1, h2, h3⟩
        · apply nConsensus2_ne
          unfold nCandFloor
          rw [if_neg (by omega), if_neg (by omega)]
          have hz : a / e = 0 := Nat.div_eq_of_lt (by omega)
          have ho : 1 ≤ (a + b) / (e + f) :=
            (Nat.one_le_div_iff (by omega)).mpr (by omega)
          intro hcontra
          have := Option.some.inj hcontra
          omega
        · apply nConsensus2_ne
          unfold nCandFloor
          rw [if_neg (by omega), if_neg (by omega)]
          have hz : (a + b) / (e + f) = 0 := Nat.div_eq_of_lt (by omega)
          have ho : 1 ≤ a / e := (Nat.one_le_div_iff (by omega)).mpr (by omega)
          intro hcontra
          have := Option.some.inj hcontra
          omega
      have hstep := engStepJ_pull h hinj ⟨ι a, ι b, X, Y, ι e, ι f, Z, W⟩ a b e f
        (ι (v / u) :: (euc u (v % u)).map ι) rfl rfl rfl rfl hcons
      have hp1 : engRun ops 1
          (.run ⟨⟨ι a, ι b, X, Y, ι e, ι f, Z, W⟩, [],
            ι (v / u) :: (euc u (v % u)).map ι, false, true⟩)
          = some ([], .run ⟨⟨ι (a * (v / u) + b), ι a,
              ops.add (ops.mul X (ι (v / u))) Y, X,
              ι (e * (v / u) + f), ι e,
              ops.add (ops.mul Z (ι (v / u))) W, Z⟩,
              [], (euc u (v % u)).map ι, false, true⟩) := by
        rw [engRun_one, hstep]
        simp [GS.ingestY, h.add, h.mul]
      have he1 : 1 ≤ e * (v / u) + f := by
        have hne : e * (v / u) ≠ 0 := Nat.mul_ne_zero (by omega) (by omega)
        omega
      have hdm := Nat.div_add_mod v u
      have hrec := ih (v % u) (Nat.mod_lt _ hu) u (a * (v / u) + b) a
        (e * (v / u) + f) e (ops.add (ops.mul X (ι (v / u))) Y) X
        (ops.add (ops.mul Z (ι (v / u))) W) Z he1
        (by
          rcases hinv with ⟨h1, h2, h3⟩ | ⟨h1, h2, h3⟩
          · right
            refine ⟨?_, ?_, Nat.mod_lt _ hu⟩
            · rw [h1, h2, Nat.add_mul]
              omega
            · omega
          · left
            refine ⟨?_, ?_, Nat.le_of_lt (Nat.mod_lt _ hu)⟩
            · rw [h1, h2, Nat.add_mul]
              omega
            · omega)
      have hfl : (euc u (v % u)).length + 1 + 3 = 1 + ((euc u (v % u)).length + 3) := by
        omega
      rw [hfl]
      have hrun := engRun_seq hp1 hrec
      simpa using hrun

/-! ### The `x / x` leading phase -/

theorem lfold_le : ∀ (l : List Nat) (b d e g : Nat), (∀ t ∈ l, 1 ≤ t) →
    1 ≤ e → e ≤ b → g ≤ d →
    1 ≤ (lfold l (e, g)).1 ∧ (lfold l (e, g)).1 ≤ (lfold l (b, d)).1 := by
  intro l
  induction l with
  | nil => intro b d e g _ he heb _; exact ⟨he, heb⟩
  | cons t l ih =>
    intro b d e g hl he heb hgd
    rw [lfold_cons, lfold_cons]
    have ht : 1 ≤ t := hl t (by simp)
    have het : e * t ≠ 0 := Nat.mul_ne_zero (by omega) (by omega)
    exact ih (b * t + d) b (e * t + g) e
      (fun t' ht' => hl t' (by simp [ht']))
      (by omega)
      (by
        have := Nat.mul_le_mul_right t heb
        omega)
      heb

theorem lawE_x {α : Type} {ops : MOps α} {ι : Nat → α}
    (h : MEmb ops ι) (hinj : Function.Injective ι) :
    ∀ (l : List Nat) (b d e g : Nat) (ys : List Nat),
      (∀ t ∈ l, 1 ≤ t) → 1 ≤ e → e ≤ b → g ≤ d →
      engRun ops l.length
          (.run ((⟨⟨0, b, 0, d, e, 0, g, 0⟩, l, ys, true, true⟩ : ECfg Nat).emb ι))
        = some ([], .run ((⟨⟨0, (lfold l (b, d)).1, 0, (lfold l (b, d)).2,
            (lfold l (e, g)).1, 0, (lfold l (e, g)).2, 0⟩,
            [], ys, true, true⟩ : ECfg Nat).emb ι)) := by
  intro l
  induction l with
  | nil =>
    intro b d e g ys _ _ _ _
    rw [List.length_nil, engRun_zero]
    rfl
  | cons t l ih =>
    intro b d e g ys hl he heb hgd
    have hkill : nConsensus ⟨0, b, 0, d, e, 0, g, 0⟩ true true = none := by
      apply nConsensus_ne_y
      show nCandFloor (0 + b) (e + 0) ≠ nCandFloor 0 e
      unfold nCandFloor
      rw [if_neg (by omega), if_neg (by omega), Nat.zero_add, Nat.add_zero,
        Nat.zero_div]
      have hone : 1 ≤ b / e := (Nat.one_le_div_iff (by omega)).mpr heb
      intro hcontra
      have := Option.some.inj hcontra
      omega
    have hstep := engStep_emb_pull h hinj
      ⟨⟨0, b, 0, d, e, 0, g, 0⟩, t :: l, ys, true, true⟩ hkill
    rw [show (t :: l).length = l.length + 1 from rfl, engRun_succ, hstep]
    dsimp only [nPull, EView.emb]
    have hst : nIngestX ⟨0, b, 0, d, e, 0, g, 0⟩ t
        = ⟨0, b * t + d, 0, b, e * t + g, 0, e, 0⟩ := by
      simp [nIngestX]
    have ht : 1 ≤ t := hl t (by simp)
    have het : e * t ≠ 0 := Nat.mul_ne_zero (by omega) (by omega)
    rw [hst, ih (b * t + d) b (e * t + g) e ys
      (fun t' ht' => hl t' (by simp [ht'])) (by omega)
      (by
        have := Nat.mul_le_mul_right t heb
        omega)
      heb]
    rfl

theorem lawE_x_small {α : Type} {ops : MOps α} {ι : Nat → α}
    (h : MEmb ops ι) (hinj : Function.Injective ι)
    (lr l1 : List Nat) (x1 x2 y1 y2 A0 F0 : Nat)
    (hA : (lfold lr (x1, x2)).1 = A0) (hF : (lfold lr (y1, y2)).1 = F0)
    (hF1 : 1 ≤ F0) (hFA : F0 ≤ A0) (hl1 : l1 = euc A0 F0) :
    engRun ops (lr.length + (1 + ((euc A0 F0).length + 3)))
        (.run ((⟨⟨x1, 0, x2, 0, 0, y1, 0, y2⟩, lr, 0 :: l1, true, true⟩ : ECfg Nat).emb ι))
      = some ([ι 1], .halted) := by
  rw [hl1]
  have hblind := engRun_blind_emb h hinj lr x1 0 x2 0 y1 y2 (0 :: euc A0 F0) true
  rw [lfold_zero, hA, hF] at hblind
  set C0 := (lfold lr (x1, x2)).2 with hC0
  set H0 := (lfold lr (y1, y2)).2 with hH0
  have hs1 := engStep_emb_pull h hinj
    ⟨⟨A0, 0, C0, 0, 0, F0, 0, H0⟩, [], 0 :: euc A0 F0, true, true⟩
    (nConsensus_e0 _ _ _ rfl)
  have hy : nIngestY ⟨A0, 0, C0, 0, 0, F0, 0, H0⟩ 0
      = ⟨0, A0, 0, C0, F0, 0, H0, 0⟩ := by
    simp [nIngestY]
  have hp1 : engRun ops 1
      (.run ((⟨⟨A0, 0, C0, 0, 0, F0, 0, H0⟩, [], 0 :: euc A0 F0, true, true⟩ : ECfg Nat).emb ι))
      = some ([], .run ((⟨⟨0, A0, 0, C0, F0, 0, H0, 0⟩, [], euc A0 F0, false, true⟩ : ECfg Nat).emb ι)) := by
    rw [engRun_one, hs1]
    dsimp only [nPull, EView.emb]
    rw [hy]
  have hyph := lawE_yphase h hinj F0 A0 0 A0 F0 0 (ι 0) (ι C0) (ι H0) (ι 0) hF1
    (Or.inl ⟨by omega, by omega, hFA⟩)
  have hrun := engRun_seq hblind (engRun_seq hp1 hyph)
  simpa using hrun

/-! ### Law run: `x / x` (backend-generic) -/

theorem lawE_emb {α : Type} {ops : MOps α} {ι : Nat → α}
    (h : MEmb ops ι) (hinj : Function.Injective ι) (p q : Nat)
    (hp : p ≠ 0) (hq : q ≠ 0) :
    engRun ops (2 * (euc p q).length + 4)
        (engInit (divSeedN.emb ι) ((euc p q).map ι) ((euc p q).map ι))
      = some ((if q ≤ p then [ι 1] else [ι 0, ι 1]), .halted) := by
  rcases Nat.lt_or_ge p q with hpq | hpq
  · -- p < q : the run emits an early 0, then closes with a 1
    rw [if_neg (by omega)]
    have hsplit : euc p q = 0 :: euc q p := by
      rw [euc_of_ne p hq, Nat.div_eq_of_lt hpq, Nat.mod_eq_of_lt hpq]
    have hqp : euc q p = q / p :: euc p (q % p) := euc_of_ne q hp
    set t1 := q / p with ht1def
    set l2 := euc p (q % p) with hl2def
    have ht1 : 1 ≤ t1 := (Nat.one_le_div_iff (Nat.pos_of_ne_zero hp)).mpr (by omega)
    obtain ⟨hM1, hM2⟩ := matOf_euc p hp q
    set A0 := q / Nat.gcd q p with hA0
    set F0 := p / Nat.gcd q p with hF0
    have hF1 : 1 ≤ F0 := Nat.pos_of_ne_zero (div_gcd_ne_zero_right hp)
    have hFA : F0 ≤ A0 := Nat.div_le_div_right (by omega)
    have hl1 : euc q p = euc A0 F0 := (euc_reduce hp).symm
    rw [hsplit, hqp]
    have hstep0 := engStep_emb_pull h hinj
      ⟨divSeedN, 0 :: t1 :: l2, 0 :: t1 :: l2, true, true⟩
      (nConsensus_e0 _ _ _ rfl)
    have hp0 : engRun ops 1
        (.run ((⟨divSeedN, 0 :: t1 :: l2, 0 :: t1 :: l2, true, true⟩ : ECfg Nat).emb ι))
        = some ([], .run ((⟨⟨0, 0, 0, 1, 1, 0, 0, 0⟩, t1 :: l2, 0 :: t1 :: l2,
            true, true⟩ : ECfg Nat).emb ι)) := by
      rw [engRun_one, hstep0]
      dsimp only [nPull, EView.emb]
      rw [show nIngestX divSeedN 0 = ⟨0, 0, 0, 1, 1, 0, 0, 0⟩ from by
        simp [nIngestX, divSeedN]]
    have hkill1 : nConsensus ⟨0, 0, 0, 1, 1, 0, 0, 0⟩ true true = none := by
      apply nConsensus_ne_xy
      norm_num [nCandFloor]
    have hstep1 := engStep_emb_pull h hinj
      ⟨⟨0, 0, 0, 1, 1, 0, 0, 0⟩, t1 :: l2, 0 :: t1 :: l2, true, true⟩ hkill1
    have hp1 : engRun ops 1
        (.run ((⟨⟨0, 0, 0, 1, 1, 0, 0, 0⟩, t1 :: l2, 0 :: t1 :: l2, true, true⟩ : ECfg Nat).emb ι))
        = some ([], .run ((⟨⟨0, 1, 0, 0, t1, 0, 1, 0⟩, l2, 0 :: t1 :: l2,
            true, true⟩ : ECfg Nat).emb ι)) := by
      rw [engRun_one, hstep1]
      dsimp only [nPull, EView.emb]
      rw [show nIngestX ⟨0, 0, 0, 1, 1, 0, 0, 0⟩ t1 = ⟨0, 1, 0, 0, t1, 0, 1, 0⟩ from by
        simp [nIngestX]]
    rcases Nat.lt_or_ge 1 t1 with ht2 | ht2
    · -- first proper term at least 2 : the 0 is forced right here
      have hfire : nConsensus ⟨0, 1, 0, 0, t1, 0, 1, 0⟩ true true = some 0 := by
        apply nConsensus_fire4 (show t1 ≠ 0 by omega)
          (show t1 + 0 + 1 + 0 ≠ 0 by omega) (show t1 + 0 ≠ 0 by omega)
          (show t1 + 1 ≠ 0 by omega)
        · exact Nat.zero_div _
        · show (0 + 1 + 0 + 0) / (t1 + 0 + 1 + 0) = 0
          exact Nat.div_eq_of_lt (by omega)
        · show (0 + 1) / (t1 + 0) = 0
          exact Nat.div_eq_of_lt (by omega)
        · show (0 + 0) / (t1 + 1) = 0
          exact Nat.zero_div _
      have hstep2 := engStep_emb_emit0 h hinj
        ⟨⟨0, 1, 0, 0, t1, 0, 1, 0⟩, l2, 0 :: t1 :: l2, true, true⟩ hfire
      have hp2 : engRun ops 1
          (.run ((⟨⟨0, 1, 0, 0, t1, 0, 1, 0⟩, l2, 0 :: t1 :: l2, true, true⟩ : ECfg Nat).emb ι))
          = some ([ι 0], .run ((⟨⟨t1, 0, 1, 0, 0, 1, 0, 0⟩, l2, 0 :: t1 :: l2,
              true, true⟩ : ECfg Nat).emb ι)) := by
        rw [engRun_one, hstep2]
        rfl
      have hA : (lfold l2 (t1, 1)).1 = A0 := by
        rw [lfold_eq]
        have hmt : (matOf (t1 :: l2)).1 = A0 := by rw [← hqp]; exact hM1
        rw [← hmt]
        show t1 * (matOf l2).1 + 1 * (matOf l2).2.2.1
            = t1 * (matOf l2).1 + (matOf l2).2.2.1
        ring
      have hF : (lfold l2 (1, 0)).1 = F0 := by
        rw [lfold_eq]
        have hmt : (matOf (t1 :: l2)).2.2.1 = F0 := by rw [← hqp]; exact hM2
        rw [← hmt]
        show 1 * (matOf l2).1 + 0 * (matOf l2).2.2.1 = (matOf l2).1
        ring
      have hl1a : t1 :: l2 = euc A0 F0 := by rw [← hqp]; exact hl1
      have hsmall := lawE_x_small h hinj l2 (t1 :: l2) t1 1 1 0 A0 F0 hA hF hF1 hFA hl1a
      have hlenA : (euc A0 F0).length = l2.length + 1 := by
        rw [← hl1a]
        simp
      have hrun := engRun_seq hp0 (engRun_seq hp1 (engRun_seq hp2 hsmall))
      have hfuel : 2 * (0 :: t1 :: l2).length + 4
          = 1 + (1 + (1 + (l2.length + (1 + ((euc A0 F0).length + 3))))) := by
        simp only [List.length_cons]
        omega
      rw [hfuel]
      simpa using hrun
    · -- first proper term exactly 1 : one further ingestion forces the 0
      have ht1e : t1 = 1 := by omega
      have hmodp : q % p ≠ 0 := by
        have hdm := Nat.div_add_mod q p
        rw [← ht1def, ht1e] at hdm
        omega
      rcases hl2e : l2 with _ | ⟨t2, l3⟩
      · exfalso
        rw [hl2def] at hl2e
        exact euc_ne_nil p hmodp hl2e
      have ht2 : 1 ≤ t2 := by
        have := euc_tail_terms_pos q hp t2
        rw [← hl2def, hl2e] at this
        exact this (by simp)
      rw [ht1e] at hp0 hp1 hqp ⊢
      rw [hl2e] at hp0 hp1 hqp
      have hkill2 : nConsensus ⟨0, 1, 0, 0, 1, 0, 1, 0⟩ true true = none := by
        apply nConsensus_ne_y
        norm_num [nCandFloor]
      have hstep2 := engStep_emb_pull h hinj
        ⟨⟨0, 1, 0, 0, 1, 0, 1, 0⟩, t2 :: l3, 0 :: 1 :: t2 :: l3, true, true⟩ hkill2
      have hp2 : engRun ops 1
          (.run ((⟨⟨0, 1, 0, 0, 1, 0, 1, 0⟩, t2 :: l3, 0 :: 1 :: t2 :: l3, true, true⟩ : ECfg Nat).emb ι))
          = some ([], .run ((⟨⟨0, t2, 0, 1, t2 + 1, 0, 1, 0⟩, l3, 0 :: 1 :: t2 :: l3,
              true, true⟩ : ECfg Nat).emb ι)) := by
        rw [engRun_one, hstep2]
        dsimp only [nPull, EView.emb]
        rw [show nIngestX ⟨0, 1, 0, 0, 1, 0, 1, 0⟩ t2 = ⟨0, t2, 0, 1, t2 + 1, 0, 1, 0⟩ from by
          simp [nIngestX]]
      have hfire : nConsensus ⟨0, t2, 0, 1, t2 + 1, 0, 1, 0⟩ true true = some 0 := by
        apply nConsensus_fire4 (show t2 + 1 ≠ 0 by omega)
          (show t2 + 1 + 0 + 1 + 0 ≠ 0 by omega) (show t2 + 1 + 0 ≠ 0 by omega)
          (show t2 + 1 + 1 ≠ 0 by omega)
        · exact Nat.zero_div _
        · show (0 + t2 + 0 + 1) / (t2 + 1 + 0 + 1 + 0) = 0
          exact Nat.div_eq_of_lt (by omega)
        · show (0 + t2) / (t2 + 1 + 0) = 0
          exact Nat.div_eq_of_lt (by omega)
        · show (0 + 0) / (t2 + 1 + 1) = 0
          exact Nat.zero_div _
      have hstep3 := engStep_emb_emit0 h hinj
        ⟨⟨0, t2, 0, 1, t2 + 1, 0, 1, 0⟩, l3, 0 :: 1 :: t2 :: l3, true, true⟩ hfire
      have hp3 : engRun ops 1
          (.run ((⟨⟨0, t2, 0, 1, t2 + 1, 0, 1, 0⟩, l3, 0 :: 1 :: t2 :: l3, true, true⟩ : ECfg Nat).emb ι))
          = some ([ι 0], .run ((⟨⟨t2 + 1, 0, 1, 0, 0, t2, 0, 1⟩, l3, 0 :: 1 :: t2 :: l3,
              true, true⟩ : ECfg Nat).emb ι)) := by
        rw [engRun_one, hstep3]
        rfl
      have hA : (lfold l3 (t2 + 1, 1)).1 = A0 := by
        rw [lfold_eq]
        have hmt : (matOf (1 :: t2 :: l3)).1 = A0 := by rw [← hqp]; exact hM1
        rw [← hmt]
        show (t2 + 1) * (matOf l3).1 + 1 * (matOf l3).2.2.1
            = 1 * (t2 * (matOf l3).1 + (matOf l3).2.2.1) + (matOf l3).1
        ring
      have hF : (lfold l3 (t2, 1)).1 = F0 := by
        rw [lfold_eq]
        have hmt : (matOf (1 :: t2 :: l3)).2.2.1 = F0 := by rw [← hqp]; exact hM2
        rw [← hmt]
        show t2 * (matOf l3).1 + 1 * (matOf l3).2.2.1
            = t2 * (matOf l3).1 + (matOf l3).2.2.1
        ring
      have hl1b : 1 :: t2 :: l3 = euc A0 F0 := by rw [← hqp]; exact hl1
      have hsmall := lawE_x_small h hinj l3 (1 :: t2 :: l3) (t2 + 1) 1 t2 1 A0 F0
        hA hF hF1 hFA hl1b
      have hlenB : (euc A0 F0).length = l3.length + 2 := by
        rw [← hl1b]
        simp
      have hrun := engRun_seq hp0 (engRun_seq hp1
        (engRun_seq hp2 (engRun_seq hp3 hsmall)))
      have hfuel : 2 * (0 :: 1 :: t2 :: l3).length + 4
          = 1 + (1 + (1 + (1 + (l3.length + (1 + ((euc A0 F0).length + 3)))))) := by
        simp only [List.length_cons]
        omega
      rw [hfuel]
      simpa using hrun
  · -- q ≤ p : no digit before the stream swap; the run closes with the 1
    rw [if_pos hpq]
    have hsplit : euc p q = p / q :: euc q (p % q) := euc_of_ne p hq
    set t0 := p / q with ht0def
    set tl := euc q (p % q) with htldef
    obtain ⟨hM1, hM2⟩ := matOf_euc q hq p
    set g := Nat.gcd p q with hgdef
    set P := p / g with hPdef
    set Q := q / g with hQdef
    have hg0 : g ≠ 0 := by
      rw [hgdef]
      intro h0
      exact hq (Nat.eq_zero_of_gcd_eq_zero_right h0)
    have hgp : g * P = p := Nat.mul_div_cancel' (Nat.gcd_dvd_left p q)
    have hgq : g * Q = q := Nat.mul_div_cancel' (Nat.gcd_dvd_right p q)
    have hQ0 : Q ≠ 0 := div_gcd_ne_zero_right hq
    have hQP : Q ≤ P := Nat.div_le_div_right hpq
    have ht0P : t0 = P / Q := by
      rw [ht0def, ← hgp, ← hgq]
      exact Nat.mul_div_mul_left P Q (Nat.pos_of_ne_zero hg0)
    have hmodred : p % q = g * (P % Q) := by
      rw [← hgp, ← hgq]
      exact Nat.mul_mod_mul_left g P Q
    have htlred : tl = euc Q (P % Q) := by
      rw [htldef, hmodred, ← hgq]
      exact euc_scale g hg0 (P % Q) Q
    have ht01 : 1 ≤ t0 := by
      rw [ht0def]
      exact (Nat.one_le_div_iff (Nat.pos_of_ne_zero hq)).mpr hpq
    rw [hsplit]
    have hstep0 := engStep_emb_pull h hinj
      ⟨divSeedN, t0 :: tl, t0 :: tl, true, true⟩
      (nConsensus_e0 _ _ _ rfl)
    have hp0 : engRun ops 1
        (.run ((⟨divSeedN, t0 :: tl, t0 :: tl, true, true⟩ : ECfg Nat).emb ι))
        = some ([], .run ((⟨⟨0, t0, 0, 1, 1, 0, 0, 0⟩, tl, t0 :: tl,
            true, true⟩ : ECfg Nat).emb ι)) := by
      rw [engRun_one, hstep0]
      dsimp only [nPull, EView.emb]
      rw [show nIngestX divSeedN t0 = ⟨0, t0, 0, 1, 1, 0, 0, 0⟩ from by
        simp [nIngestX, divSeedN]]
    have htpos : ∀ t ∈ tl, 1 ≤ t := by
      intro t ht
      rw [htldef] at ht
      exact euc_tail_terms_pos p hq t ht
    have hxrun := lawE_x h hinj tl t0 1 1 0 (t0 :: tl) htpos (le_refl 1) ht01
      (Nat.zero_le 1)
    have hB : (lfold tl (t0, 1)).1 = P := by
      rw [lfold_eq]
      have hmt : (matOf (t0 :: tl)).1 = P := by rw [← hsplit]; exact hM1
      rw [← hmt]
      show t0 * (matOf tl).1 + 1 * (matOf tl).2.2.1
          = t0 * (matOf tl).1 + (matOf tl).2.2.1
      ring
    have hE : (lfold tl (1, 0)).1 = Q := by
      rw [lfold_eq]
      have hmt : (matOf (t0 :: tl)).2.2.1 = Q := by rw [← hsplit]; exact hM2
      rw [← hmt]
      show 1 * (matOf tl).1 + 0 * (matOf tl).2.2.1 = (matOf tl).1
      ring
    rw [hB, hE] at hxrun
    set D0 := (lfold tl (t0, 1)).2 with hD0
    set G0 := (lfold tl (1, 0)).2 with hG0
    have hkill : nConsensus ⟨0, P, 0, D0, Q, 0, G0, 0⟩ true true = none := by
      apply nConsensus_ne_y
      show nCandFloor (0 + P) (Q + 0) ≠ nCandFloor 0 Q
      unfold nCandFloor
      rw [if_neg (by omega), if_neg hQ0, Nat.zero_add, Nat.add_zero, Nat.zero_div]
      have hone : 1 ≤ P / Q := (Nat.one_le_div_iff (by omega)).mpr hQP
      intro hcontra
      have := Option.some.inj hcontra
      omega
    have hstepy := engStep_emb_pull h hinj
      ⟨⟨0, P, 0, D0, Q, 0, G0, 0⟩, [], t0 :: tl, true, true⟩ hkill
    have hpy : engRun ops 1
        (.run ((⟨⟨0, P, 0, D0, Q, 0, G0, 0⟩, [], t0 :: tl, true, true⟩ : ECfg Nat).emb ι))
        = some ([], .run ((⟨⟨P, 0, D0, 0, Q * t0, Q, G0 * t0, G0⟩, [], tl,
            false, true⟩ : ECfg Nat).emb ι)) := by
      rw [engRun_one, hstepy]
      dsimp only [nPull, EView.emb]
      rw [show nIngestY ⟨0, P, 0, D0, Q, 0, G0, 0⟩ t0
          = ⟨P, 0, D0, 0, Q * t0, Q, G0 * t0, G0⟩ from by simp [nIngestY]]
    rw [htlred] at hp0 hxrun hpy ⊢
    have he1 : 1 ≤ Q * t0 := by
      have : Q * t0 ≠ 0 := Nat.mul_ne_zero (by omega) (by omega)
      omega
    have hyph := lawE_yphase h hinj (P % Q) Q P 0 (Q * t0) Q (ι D0) (ι 0)
      (ι (G0 * t0)) (ι G0) he1
      (Or.inr ⟨by
          rw [ht0P]
          have := Nat.div_add_mod P Q
          omega,
        by omega, Nat.mod_lt _ (Nat.pos_of_ne_zero hQ0)⟩)
    have hrun := engRun_seq hp0 (engRun_seq hxrun (engRun_seq hpy hyph))
    have hfuel : 2 * (t0 :: euc Q (P % Q)).length + 4
        = (1 + ((euc Q (P % Q)).length + (1 + ((euc Q (P % Q)).length + 3)))) + 1 := by
      simp only [List.length_cons]
      omega
    rw [hfuel]
    apply engRun_pad
    simpa using hrun

/-! ### Integer-engine consensus lemmas (for the signed subtraction run) -/

theorem specConsensus_e0I (s : GS Int) (xA yA : Bool) (he : s.e = 0) :
    specConsensus s xA yA = none := by
  unfold specConsensus
  rw [show specCandFloor s.a s.e = none from by
    unfold specCandFloor
    rw [he]
    simp]

theorem specConsensus_neI (s : GS Int) (xA : Bool)
    (hne : specCandFloor (s.a + s.b) (s.e + s.f) ≠ specCandFloor s.a s.e) :
    specConsensus s xA true = none := by
  unfold specConsensus
  rcases hc : specCandFloor s.a s.e with _ | k
  · rfl
  · dsimp only
    rw [if_neg]
    intro hall
    apply hne
    rw [hc]
    have hmem : specCandFloor (s.a + s.b) (s.e + s.f) ∈ specCands s xA true := by
      cases xA <;> simp [specCands]
    exact hall _ hmem

theorem fastDivQ_zero (d : Int) : fastDivQ 0 d = 0 := by
  unfold fastDivQ
  split <;> simp

theorem fastDivR_zero (d : Int) : fastDivR 0 d = 0 := by
  unfold fastDivR
  split <;> simp

theorem fdiv_nonneg_of (a e : Int) (ha : 0 ≤ a) (he : 0 < e) :
    0 ≤ Int.fdiv a e := by
  rw [Int.fdiv_eq_ediv _ (le_of_lt he)]
  exact Int.ediv_nonneg ha (le_of_lt he)

theorem fdiv_neg_of (a e : Int) (ha : a < 0) (he : 0 < e) :
    Int.fdiv a e < 0 := by
  rw [Int.fdiv_eq_ediv _ (le_of_lt he)]
  exact Int.ediv_neg' ha he

/-! ### The blind phase over signed states -/

theorem engRun_blindI : ∀ (l : List Nat) (a b c d f hh : Int)
    (ys : List Int) (yA : Bool),
    engRun intOps l.length
        (.run ⟨⟨a, b, c, d, 0, f, 0, hh⟩, l.map (fun t : Nat => (t : Int)), ys, true, yA⟩)
      = some ([], .run ⟨⟨(lfoldI (l.map (fun t : Nat => (t : Int))) (a, c)).1,
          (lfoldI (l.map (fun t : Nat => (t : Int))) (b, d)).1,
          (lfoldI (l.map (fun t : Nat => (t : Int))) (a, c)).2,
          (lfoldI (l.map (fun t : Nat => (t : Int))) (b, d)).2, 0,
          (lfoldI (l.map (fun t : Nat => (t : Int))) (f, hh)).1, 0,
          (lfoldI (l.map (fun t : Nat => (t : Int))) (f, hh)).2⟩,
          [], ys, true, yA⟩) := by
  intro l
  induction l with
  | nil =>
    intro a b c d f hh ys yA
    rw [List.length_nil, engRun_zero]
    rfl
  | cons t l ih =>
    intro a b c d f hh ys yA
    have hcons := specConsensus_e0I ⟨a, b, c, d, 0, f, 0, hh⟩ true yA rfl
    rw [List.map_cons, show (t :: l).length = l.length + 1 from rfl, engRun_succ,
      engStep_int]
    rw [show (⟨⟨a, b, c, d, 0, f, 0, hh⟩, (t : Int) :: l.map (fun t : Nat => (t : Int)),
        ys, true, yA⟩ : ECfg Int).st = ⟨a, b, c, d, 0, f, 0, hh⟩ from rfl]
    rw [hcons]
    dsimp only [specPull]
    rw [show specIngestX ⟨a, b, c, d, 0, f, 0, hh⟩ (t : Int)
        = ⟨a * (t : Int) + c, b * (t : Int) + d, a, b, 0, f * (t : Int) + hh, 0, f⟩ from by
      simp [specIngestX]]
    rw [ih (a * (t : Int) + c) (b * (t : Int) + d) a b (f * (t : Int) + hh) f ys yA]
    rfl

/-! ### The `x - x` tail phase

After the blind phase the probed rows are `(εu, -εv)` and `(E, F)` with
`euc v u` still unconsumed; the sign `ε` flips at each ingestion, the
two probed floors always straddle zero, and the final state has `a = 0`
so the run ends in `[0]`. -/

theorem lawD_y :
    ∀ u : Nat, ∀ (v : Nat) (ε E F C D G H : Int),
      (ε = 1 ∨ ε = -1) → 1 ≤ E → 0 ≤ F → u < v →
      engRun intOps ((euc v u).length + 3)
          (.run ⟨⟨ε * (u : Int), -(ε * (v : Int)), C, D, E, F, G, H⟩, [],
            (euc v u).map (fun t : Nat => (t : Int)), false, true⟩)
        = some ([0], .halted) := by
  intro u
  induction u using Nat.strong_induction_on with
  | _ u ih =>
    intro v ε E F C D G H hε hE hF huv
    have hcfirst0 : specCandFloor (0 : Int) E = some 0 := by
      unfold specCandFloor
      rw [if_neg (by omega)]
      rw [Int.fdiv_eq_ediv _ (by omega)]
      simp
    rcases Nat.eq_zero_or_pos u with hu | hu
    · subst hu
      rw [euc_zero]
      simp only [List.map_nil, List.length_nil]
      rw [show ε * ((0 : Nat) : Int) = 0 from by simp]
      by_cases hk2 : specCandFloor (0 + -(ε * (v : Int))) (E + F) = some 0
      · -- consensus 0 fires, then the vacuum denominator halts the run
        have hcands : specCands ⟨0, -(ε * (v : Int)), C, D, E, F, G, H⟩ false true
            = [specCandFloor 0 E,
               specCandFloor (0 + -(ε * (v : Int))) (E + F)] := rfl
        have hforall : ∀ cnd ∈ [specCandFloor (0 : Int) E,
            specCandFloor (0 + -(ε * (v : Int))) (E + F)], cnd = some 0 := by
          intro cnd hcnd
          rcases List.mem_cons.mp hcnd with h1 | h1
          · rw [h1]; exact hcfirst0
          · rw [List.mem_singleton.mp h1]; exact hk2
        have hcons : specConsensus ⟨0, -(ε * (v : Int)), C, D, E, F, G, H⟩ false true
            = some 0 := by
          unfold specConsensus
          rw [hcfirst0]
          dsimp only
          rw [hcands, if_pos hforall]
        have hp1 : engRun intOps 1
            (.run ⟨⟨0, -(ε * (v : Int)), C, D, E, F, G, H⟩, [], [], false, true⟩)
            = some ([0], .run ⟨⟨E, F, G, H, 0, -(ε * (v : Int)), C, D⟩, [], [],
                false, true⟩) := by
          rw [engRun_one, engStep_int, hcons]
          dsimp only
          rw [show specEmit ⟨0, -(ε * (v : Int)), C, D, E, F, G, H⟩ 0
              = ⟨E, F, G, H, 0, -(ε * (v : Int)), C, D⟩ from by simp [specEmit]]
        have hp2 : engRun intOps 1
            (.run ⟨⟨E, F, G, H, 0, -(ε * (v : Int)), C, D⟩, [], [], false, true⟩)
            = some ([], .drain E 0) := by
          rw [engRun_one, engStep_int,
            specConsensus_e0I ⟨E, F, G, H, 0, -(ε * (v : Int)), C, D⟩ false true rfl]
          rfl
        have hp3 : engRun intOps 1 (.drain E 0) = some ([], .halted) := by
          rw [engRun_one]
          rw [show engStep intOps (.drain E (0 : Int)) = some (.halted, none) from by
            simp [engStep, intOps]]
        have hrun := engRun_seq hp1 (engRun_seq hp2 hp3)
        simpa using hrun
      · -- no consensus : the drain on (0, E) yields the 0
        have hcons : specConsensus ⟨0, -(ε * (v : Int)), C, D, E, F, G, H⟩ false true
            = none := by
          apply specConsensus_neI
          show specCandFloor (0 + -(ε * (v : Int))) (E + F) ≠ specCandFloor 0 E
          rw [hcfirst0]
          exact hk2
        have hp1 : engRun intOps 1
            (.run ⟨⟨0, -(ε * (v : Int)), C, D, E, F, G, H⟩, [], [], false, true⟩)
            = some ([], .drain 0 E) := by
          rw [engRun_one, engStep_int, hcons]
          rfl
        have hp2 : engRun intOps 1 (.drain (0 : Int) E) = some ([0], .drain E 0) := by
          rw [engRun_one]
          rw [show engStep intOps (.drain (0 : Int) E)
              = some (.drain E 0, some 0) from by
            have hE0 : E ≠ 0 := by omega
            simp [engStep, intOps, hE0, fastDivQ_zero, fastDivR_zero]]
        have hp3 : engRun intOps 1 (.drain E 0) = some ([], .halted) := by
          rw [engRun_one]
          rw [show engStep intOps (.drain E (0 : Int)) = some (.halted, none) from by
            simp [engStep, intOps]]
        have hrun := engRun_seq hp1 (engRun_seq hp2 hp3)
        simpa using hrun
    · -- a term remains : probes straddle zero, ingest the head
      have hu0 : u ≠ 0 := by omega
      rw [euc_of_ne v hu0, List.map_cons, List.length_cons]
      have hcfirst : specCandFloor (ε * (u : Int)) E
          = some (Int.fdiv (ε * (u : Int)) E) := by
        unfold specCandFloor
        rw [if_neg (by omega)]
      have hcsec : specCandFloor (ε * (u : Int) + -(ε * (v : Int))) (E + F)
          = some (Int.fdiv (ε * (u : Int) + -(ε * (v : Int))) (E + F)) := by
        unfold specCandFloor
        rw [if_neg (by omega)]
      have huvI : ((u : Int)) < ((v : Int)) := by exact_mod_cast huv
      have huI : (1 : Int) ≤ (u : Int) := by exact_mod_cast hu
      have hcons : specConsensus ⟨ε * (u : Int), -(ε * (v : Int)), C, D, E, F, G, H⟩
          false true = none := by
        apply specConsensus_neI
        show specCandFloor (ε * (u : Int) + -(ε * (v : Int))) (E + F)
            ≠ specCandFloor (ε * (u : Int)) E
        rw [hcfirst, hcsec]
        intro hcontra
        have heq := Option.some.inj hcontra
        rcases hε with hε | hε <;> subst hε
        · have h1 : 0 ≤ Int.fdiv (1 * (u : Int)) E :=
            fdiv_nonneg_of _ _ (by omega) (by omega)
          have h2 : Int.fdiv (1 * (u : Int) + -(1 * (v : Int))) (E + F) < 0 :=
            fdiv_neg_of _ _ (by omega) (by omega)
          omega
        · have h1 : Int.fdiv (-1 * (u : Int)) E < 0 :=
            fdiv_neg_of _ _ (by omega) (by omega)
          have h2 : 0 ≤ Int.fdiv (-1 * (u : Int) + -(-1 * (v : Int))) (E + F) :=
            fdiv_nonneg_of _ _ (by omega) (by omega)
          omega
      have hp1 : engRun intOps 1
          (.run ⟨⟨ε * (u : Int), -(ε * (v : Int)), C, D, E, F, G, H⟩, [],
            ((v / u : Nat) : Int) :: (euc u (v % u)).map (fun t : Nat => (t : Int)),
            false, true⟩)
          = some ([], .run ⟨⟨(ε * (u : Int)) * ((v / u : Nat) : Int) + -(ε * (v : Int)),
              ε * (u : Int), C * ((v / u : Nat) : Int) + D, C,
              E * ((v / u : Nat) : Int) + F, E,
              G * ((v / u : Nat) : Int) + H, G⟩, [],
              (euc u (v % u)).map (fun t : Nat => (t : Int)), false, true⟩) := by
        rw [engRun_one, engStep_int, hcons]
        rfl
      have hvdm : (v : Int) = (u : Int) * ((v / u : Nat) : Int) + ((v % u : Nat) : Int) := by
        exact_mod_cast (Nat.div_add_mod v u).symm
      have ha2 : (ε * (u : Int)) * ((v / u : Nat) : Int) + -(ε * (v : Int))
          = -ε * ((v % u : Nat) : Int) := by
        rw [hvdm]
        ring
      have hb2 : ε * (u : Int) = -(-ε * (u : Int)) := by ring
      rw [ha2, hb2] at hp1
      have ht1 : (1 : Int) ≤ ((v / u : Nat) : Int) := by
        exact_mod_cast (Nat.one_le_div_iff hu).mpr (Nat.le_of_lt huv)
      have hrec := ih (v % u) (Nat.mod_lt _ hu) u (-ε)
        (E * ((v / u : Nat) : Int) + F) E
        (C * ((v / u : Nat) : Int) + D) C (G * ((v / u : Nat) : Int) + H) G
        (by rcases hε with hε | hε <;> subst hε <;> norm_num)
        (by nlinarith)
        (by omega)
        (Nat.mod_lt _ hu)
      have hrun := engRun_seq hp1 hrec
      have hfl : (euc u (v % u)).length + 1 + 3
          = 1 + ((euc u (v % u)).length + 3) := by omega
      rw [hfl]
      simpa using hrun

/-! ### The full `x - x` run -/

theorem lawD_run (p q : Nat) (hq : q ≠ 0) :
    engRun intOps (2 * (euc p q).length + 4)
        (engInit subSeed ((euc p q).map (fun t : Nat => (t : Int)))
          ((euc p q).map (fun t : Nat => (t : Int))))
      = some ([0], .halted) := by
  have hsplit : euc p q = p / q :: euc q (p % q) := euc_of_ne p hq
  set t0 := p / q with ht0def
  set tl := euc q (p % q) with htldef
  obtain ⟨hM1, hM2⟩ := matOf_euc q hq p
  set g := Nat.gcd p q with hgdef
  set P := p / g with hPdef
  set Q := q / g with hQdef
  have hg0 : g ≠ 0 := by
    rw [hgdef]
    intro h0
    exact hq (Nat.eq_zero_of_gcd_eq_zero_right h0)
  have hgp : g * P = p := Nat.mul_div_cancel' (Nat.gcd_dvd_left p q)
  have hgq : g * Q = q := Nat.mul_div_cancel' (Nat.gcd_dvd_right p q)
  have hQ0 : Q ≠ 0 := div_gcd_ne_zero_right hq
  have ht0P : t0 = P / Q := by
    rw [ht0def, ← hgp, ← hgq]
    exact Nat.mul_div_mul_left P Q (Nat.pos_of_ne_zero hg0)
  have hmodred : p % q = g * (P % Q) := by
    rw [← hgp, ← hgq]
    exact Nat.mul_mod_mul_left g P Q
  have htlred : tl = euc Q (P % Q) := by
    rw [htldef, hmodred, ← hgq]
    exact euc_scale g hg0 (P % Q) Q
  have hm1 : (matOf (t0 :: tl)).1 = P := by rw [← hsplit]; exact hM1
  have hm21 : (matOf (t0 :: tl)).2.2.1 = Q := by rw [← hsplit]; exact hM2
  rw [hsplit]
  have hblind := engRun_blindI (t0 :: tl) 0 1 (-1) 0 0 1
    ((t0 :: tl).map (fun t : Nat => (t : Int))) true
  have hc1 : (lfoldI ((t0 :: tl).map (fun t : Nat => (t : Int))) (0, -1)).1
      = -(Q : Int) := by
    simp only [lfoldI_eq]
    rw [hm1, hm21]
    ring
  have hc2 : (lfoldI ((t0 :: tl).map (fun t : Nat => (t : Int))) (0, -1)).2
      = -((matOf (t0 :: tl)).2.2.2 : Int) := by
    simp only [lfoldI_eq]
    ring
  have hc3 : (lfoldI ((t0 :: tl).map (fun t : Nat => (t : Int))) (1, 0)).1
      = (P : Int) := by
    simp only [lfoldI_eq]
    rw [hm1]
    ring
  have hc4 : (lfoldI ((t0 :: tl).map (fun t : Nat => (t : Int))) (1, 0)).2
      = ((matOf (t0 :: tl)).2.1 : Int) := by
    simp only [lfoldI_eq]
    ring
  have hc5 : (lfoldI ((t0 :: tl).map (fun t : Nat => (t : Int))) (0, 1)).1
      = (Q : Int) := by
    simp only [lfoldI_eq]
    rw [hm21]
    ring
  have hc6 : (lfoldI ((t0 :: tl).map (fun t : Nat => (t : Int))) (0, 1)).2
      = ((matOf (t0 :: tl)).2.2.2 : Int) := by
    simp only [lfoldI_eq]
    ring
  rw [hc1, hc2, hc3, hc4, hc5, hc6] at hblind
  have hcons1 : specConsensus ⟨-(Q : Int), (P : Int),
      -((matOf (t0 :: tl)).2.2.2 : Int), ((matOf (t0 :: tl)).2.1 : Int),
      0, (Q : Int), 0, ((matOf (t0 :: tl)).2.2.2 : Int)⟩ true true = none :=
    specConsensus_e0I _ true true rfl
  have hpy : engRun intOps 1
      (.run ⟨⟨-(Q : Int), (P : Int), -((matOf (t0 :: tl)).2.2.2 : Int),
        ((matOf (t0 :: tl)).2.1 : Int), 0, (Q : Int), 0,
        ((matOf (t0 :: tl)).2.2.2 : Int)⟩,
        [], (t0 :: tl).map (fun t : Nat => (t : Int)), true, true⟩)
      = some ([], .run ⟨⟨(-(Q : Int)) * (t0 : Int) + (P : Int), -(Q : Int),
          (-((matOf (t0 :: tl)).2.2.2 : Int)) * (t0 : Int)
            + ((matOf (t0 :: tl)).2.1 : Int),
          -((matOf (t0 :: tl)).2.2.2 : Int),
          0 * (t0 : Int) + (Q : Int), 0,
          0 * (t0 : Int) + ((matOf (t0 :: tl)).2.2.2 : Int), 0⟩,
          [], tl.map (fun t : Nat => (t : Int)), false, true⟩) := by
    rw [engRun_one, engStep_int, hcons1]
    rfl
  have hPQI : (P : Int) = (Q : Int) * (t0 : Int) + ((P % Q : Nat) : Int) := by
    rw [ht0P]
    exact_mod_cast (Nat.div_add_mod P Q).symm
  have ha2 : (-(Q : Int)) * (t0 : Int) + (P : Int) = 1 * ((P % Q : Nat) : Int) := by
    rw [hPQI]
    ring
  have hb2 : -(Q : Int) = -(1 * (Q : Int)) := by ring
  have hyph := lawD_y (P % Q) Q 1 (0 * (t0 : Int) + (Q : Int)) 0
    ((-((matOf (t0 :: tl)).2.2.2 : Int)) * (t0 : Int) + ((matOf (t0 :: tl)).2.1 : Int))
    (-((matOf (t0 :: tl)).2.2.2 : Int))
    (0 * (t0 : Int) + ((matOf (t0 :: tl)).2.2.2 : Int))
    0
    (Or.inl rfl)
    (by
      have hQI : (1 : Int) ≤ (Q : Int) := by
        exact_mod_cast Nat.one_le_iff_ne_zero.mpr hQ0
      omega)
    (le_refl 0)
    (Nat.mod_lt _ (Nat.pos_of_ne_zero hQ0))
  rw [← ha2, ← hb2, ← htlred] at hyph
  have hrun := engRun_seq hblind (engRun_seq hpy hyph)
  have hfuel : 2 * (t0 :: tl).length + 4
      = ((t0 :: tl).length + (1 + (tl.length + 3))) + 1 := by
    simp only [List.length_cons]
    omega
  rw [hfuel]
  apply engRun_pad
  simpa [engInit, subSeed] using hrun

/-! ### Backend-generic Euclid runs (for the cross-backend comparison) -/

theorem mEuclidRun_emb {α : Type} {ops : MOps α} {ι : Nat → α}
    (h : MEmb ops ι) : ∀ q p : Nat,
    mEuclidRun ops ((euc p q).length + 1) (ι p) (ι q)
      = some ((euc p q).map ι, none) := by
  intro q
  induction q using Nat.strong_induction_on with
  | _ q ih =>
    intro p
    rcases Nat.eq_zero_or_pos q with hq | hq
    · subst hq
      rw [euc_zero]
      have hv : ops.isVacuum (ι 0) = true := by
        rw [h.vac]
        rfl
      simp [mEuclidRun, hv]
    · have hq0 : q ≠ 0 := Nat.pos_iff_ne_zero.mp hq
      rw [euc_of_ne p hq0]
      show mEuclidRun ops ((euc q (p % q)).length + 1 + 1) (ι p) (ι q) = _
      rw [mEuclidRun]
      have hv : ops.isVacuum (ι q) = false := by
        rw [h.vac]
        simp [hq0]
      rw [hv]
      simp only [Bool.false_eq_true, if_false, h.div p q hq0]
      rw [ih (p % q) (Nat.mod_lt _ hq) q]
      rfl

/-! ### Claim C5 -/

/-- C5: the identity laws hold across both Matter backends: for every
rational term list `euc p q`, `x + 0` and `x * 1` reproduce the term
list and `x * 0` yields exactly `[0]`, in the FastInteger (science)
backend and in the unary (physics) backend alike. -/
theorem claim_C5 (p q : Nat) (hq : q ≠ 0) :
    (engRun intOps (2 * (euc p q).length + 4)
        (engInit addSeed ((euc p q).map (fun t : Nat => (t : Int))) [0])
      = some ((euc p q).map (fun t : Nat => (t : Int)), .halted))
    ∧ (engRun intOps (2 * (euc p q).length + 4)
        (engInit mulSeed ((euc p q).map (fun t : Nat => (t : Int))) [1])
      = some ((euc p q).map (fun t : Nat => (t : Int)), .halted))
    ∧ (engRun intOps (2 * (euc p q).length + 4)
        (engInit mulSeed ((euc p q).map (fun t : Nat => (t : Int))) [0])
      = some ([0], .halted))
    ∧ (engRun uOps (2 * (euc p q).length + 4)
        (engInit addSeedU ((euc p q).map Unary.pos) [Unary.pos 0])
      = some ((euc p q).map Unary.pos, .halted))
    ∧ (engRun uOps (2 * (euc p q).length + 4)
        (engInit mulSeedU ((euc p q).map Unary.pos) [Unary.pos 1])
      = some ((euc p q).map Unary.pos, .halted))
    ∧ (engRun uOps (2 * (euc p q).length + 4)
        (engInit mulSeedU ((euc p q).map Unary.pos) [Unary.pos 0])
      = some ([Unary.pos 0], .halted)) := by
  have hinjI : Function.Injective (fun n : Nat => (n : Int)) := fun a b hab => by
    simpa using hab
  have hinjU : Function.Injective Unary.pos := fun a b hab => Unary.pos.inj hab
  exact ⟨lawA_emb membInt hinjI p q hq, lawB_emb membInt hinjI p q hq,
    lawC_emb membInt hinjI p q hq, lawA_emb membU hinjU p q hq,
    lawB_emb membU hinjU p q hq, lawC_emb membU hinjU p q hq⟩

/-- Witness for C5 at `p / q = 10 / 7`. -/
theorem claim_C5_witness :
    (7 : Nat) ≠ 0
      ∧ engRun intOps (2 * (euc 10 7).length + 4)
          (engInit addSeed ((euc 10 7).map (fun t : Nat => (t : Int))) [0])
        = some ((euc 10 7).map (fun t : Nat => (t : Int)), .halted)
      ∧ engRun uOps (2 * (euc 10 7).length + 4)
          (engInit mulSeedU ((euc 10 7).map Unary.pos) [Unary.pos 0])
        = some ([Unary.pos 0], .halted) :=
  ⟨by decide, (claim_C5 10 7 (by decide)).1, (claim_C5 10 7 (by decide)).2.2.2.2.2⟩

/-! ### Claim C6 -/

/-- C6 counterexample: at `x = 1` (term list `euc 1 1 = [1]`), the
division run `x / x` emits `[1]`, not the claimed uncompressed `[0, 1]`:
the claimed shape only appears for `x < 1`. -/
theorem claim_C6_counterexample :
    euc 1 1 = [1]
      ∧ engRun intOps (2 * (euc 1 1).length + 4)
          (engInit divSeed ((euc 1 1).map (fun t : Nat => (t : Int)))
            ((euc 1 1).map (fun t : Nat => (t : Int))))
        = some ([1], .halted)
      ∧ ([(1 : Int)] ≠ [0, 1]) := by
  have h11 : euc 1 1 = [1] := euc_self (by decide)
  refine ⟨h11, ?_, by decide⟩
  rw [h11]
  rfl

/-- C6 amended: for every rational with term list `euc p q`, the
subtraction `x − x` yields exactly `[0]`; the division `x / x` (for
`p ≠ 0`) yields `[0, 1]` exactly when `p < q` (that is, `x < 1`) and
yields the compressed `[1]` when `q ≤ p`. -/
theorem claim_C6_amended (p q : Nat) (hq : q ≠ 0) :
    engRun intOps (2 * (euc p q).length + 4)
        (engInit subSeed ((euc p q).map (fun t : Nat => (t : Int)))
          ((euc p q).map (fun t : Nat => (t : Int))))
      = some ([0], .halted)
    ∧ (p ≠ 0 →
        engRun intOps (2 * (euc p q).length + 4)
            (engInit divSeed ((euc p q).map (fun t : Nat => (t : Int)))
              ((euc p q).map (fun t : Nat => (t : Int))))
          = some ((if q ≤ p then [(1 : Int)] else [0, 1]), .halted)) := by
  refine ⟨lawD_run p q hq, fun hp => ?_⟩
  have hinjI : Function.Injective (fun n : Nat => (n : Int)) := fun a b hab => by
    simpa using hab
  exact lawE_emb membInt hinjI p q hp hq

/-- Witness for the amended C6 at `p / q = 10 / 7`. -/
theorem claim_C6_amended_witness :
    (7 : Nat) ≠ 0
      ∧ engRun intOps (2 * (euc 10 7).length + 4)
          (engInit subSeed ((euc 10 7).map (fun t : Nat => (t : Int)))
            ((euc 10 7).map (fun t : Nat => (t : Int))))
        = some ([0], .halted)
      ∧ engRun intOps (2 * (euc 10 7).length + 4)
          (engInit divSeed ((euc 10 7).map (fun t : Nat => (t : Int)))
            ((euc 10 7).map (fun t : Nat => (t : Int))))
        = some ((if 7 ≤ 10 then [(1 : Int)] else [0, 1]), .halted) :=
  ⟨by decide, (claim_C6_amended 10 7 (by decide)).1,
    (claim_C6_amended 10 7 (by decide)).2 (by decide)⟩

/-! ### Claim C9 -/

/-- C9: cross-backend comparison.  The `Euclid` generator agrees between
the unary (physics) backend and the FastInteger (science) backend on
every rational input, term by term with equal integer values; but the
Gosper subtraction `x − x` at `x = 1/3` (term list `euc 1 3 = [0, 3]`)
crashes in the unary backend (the run returns `none`: `get_floor`
reaches its adjustment `q + diff`, and the unary backend has no
integer-add), while the FastInteger backend yields `[0]` — so the
claimed backend equivalence fails for the Gosper arithmetic
operations. -/
theorem claim_C9 :
    (∀ p q : Nat,
        mEuclidRun uOps ((euc p q).length + 1) (Unary.pos p) (Unary.pos q)
            = some ((euc p q).map Unary.pos, none)
          ∧ mEuclidRun intOps ((euc p q).length + 1) ((p : Int)) ((q : Int))
            = some ((euc p q).map (fun t : Nat => (t : Int)), none)
          ∧ ((euc p q).map Unary.pos).map uOps.toInt
            = ((euc p q).map (fun t : Nat => (t : Int))).map intOps.toInt)
      ∧ euc 1 3 = [0, 3]
      ∧ engRun uOps 12
          (engInit subSeedU [Unary.pos 0, Unary.pos 3] [Unary.pos 0, Unary.pos 3])
        = none
      ∧ engRun intOps 12 (engInit subSeed [0, 3] [0, 3])
        = some ([0], .halted) := by
  refine ⟨fun p q => ⟨mEuclidRun_emb membU q p, mEuclidRun_emb membInt q p, ?_⟩,
    ?_, ?_, ?_⟩
  · simp [List.map_map, Function.comp, membU.toInt, intOps]
  · rw [euc_of_ne 1 (show (3 : Nat) ≠ 0 by decide)]
    rw [show (1 % 3 : Nat) = 1 from by decide, show (1 / 3 : Nat) = 0 from by decide]
    rw [euc_of_ne 3 (show (1 : Nat) ≠ 0 by decide)]
    rw [show (3 % 1 : Nat) = 0 from by decide, show (3 / 1 : Nat) = 3 from by decide]
    rw [euc_zero]
  · rfl
  · rfl

/-! ### Claim C7 -/

set_option maxRecDepth 40000 in
set_option maxHeartbeats 4000000 in
/-- C7: the GCF→SCF transducer applied to the π source (spliced with the
integer part 3) yields `[3, 7, 15, 1, 292, 1, 1, 1, 2]` as its first
nine output terms. -/
theorem claim_C7 :
    (piTerms 5390).take 9 = [3, 7, 15, 1, 292, 1, 1, 1, 2] := by
  have h : (tRun piSrcPair 5390 tInit).1
      = (tRunAcc piSrcPair 5390 tInit []).1 := by
    rw [tRunAcc_eq]
    simp
  simp only [piTerms]
  rw [h]
  decide


end Base1

